import Mathlib

/-!
Shallow embedding of the NFT-Generator engine (`src/index.js` plus the
configuration module) in Lean 4.

Conventions of the embedding:
* JS strings are Lean `String`s; character-level work happens on `String.data`
  (`List Char`).
* JS numbers appearing as rarity weights and `Math.random()` outputs are
  modelled as `Rat` (the code only ever adds, subtracts, multiplies, compares
  and floors them, so the rational subfield is faithful for every finite value
  the program manipulates).  String-to-number conversion (`Number`) returns a
  `JsNum` — NaN, a signed infinity, or an exact rational — covering the whole
  JS string numeric grammar; the binary64 artifacts on finite values (rounding
  of the exact decimal value, overflow to `Infinity` above about `1.8e308`,
  underflow to `0` below about `5e-324`) are outside this exact-rational
  convention.
* `Math.random()` is an oracle `rand : Nat → Rat` giving the n-th value the
  program draws; a counter `k` is threaded through the state.  Real executions
  satisfy `0 ≤ rand n < 1`.
* JS `Set` (insertion ordered, SameValueZero) is a duplicate-free `List`;
  JS `Map` (insertion ordered, set overwrites in place) is an association
  `List` with in-place overwrite.
* The per-edition loop variable `dna` is `undefined` until first assigned;
  it is modelled as `Option String` (`none` = `undefined`).  The JS `Set` can
  store `undefined`, hence the dna set is a `List (Option String)`.
* File-system effects (image compositing, metadata writes) are represented by
  the pure values the code derives: the ordered list of asset paths handed to
  the compositor, the metadata records written per token id.
-/

/-- Lexicographic order on character lists, comparing code points.  This is
the deterministic total order used to model `localeCompare`-based sorting:
any fixed total order on strings gives the same canonicalization semantics
(stable sort, unique sorted form), and on the ASCII names appearing in this
development it coincides with the locale order. -/
def charListLe : List Char → List Char → Bool
  | [], _ => true
  | _ :: _, [] => false
  | a :: as, b :: bs => if a = b then charListLe as bs else decide (a.toNat < b.toNat)

/-- Split a character list at every occurrence of `c`, like
`String.prototype.split` with a one-character separator (the empty string
yields one empty field). -/
def jsSplitOnChar (c : Char) : List Char → List (List Char)
  | [] => [[]]
  | a :: rest =>
    match jsSplitOnChar c rest with
    | [] => if a = c then [[], []] else [[a]]
    | h :: t => if a = c then [] :: h :: t else (a :: h) :: t

/-- Join with a separator, like `Array.prototype.join`. -/
def joinSep (sep : String) : List String → String
  | [] => ""
  | [x] => x
  | x :: rest => x ++ sep ++ joinSep sep (rest)

/-- Decimal digits of `n`, most significant first; `fuel`-guarded recursion
(`fuel > n` suffices). -/
def natDigitsGo : Nat → Nat → List Char
  | 0, _ => []
  | fuel + 1, n =>
    if n < 10 then [Char.ofNat (48 + n)]
    else natDigitsGo fuel (n / 10) ++ [Char.ofNat (48 + n % 10)]

/-- Decimal rendering of a natural number, as JS template literals render the
edition counter. -/
def natToString (n : Nat) : String :=
  ⟨natDigitsGo (n + 1) n⟩

/-- Model of JS `String.prototype.lastIndexOf` for a single-character search
string, on the character list of the base string. -/
def lastIndexOf : List Char → Char → Option Nat
  | [], _ => none
  | a :: rest, c =>
    match lastIndexOf rest c with
    | some i => some (i + 1)
    | none => if a = c then some 0 else none

/-- Model of `path.parse(filename).name` for the plain basenames produced by
`glob("*.png")`: the part before the last dot, except that a lone leading dot
(dot-file) does not start an extension. -/
def pathParseName (l : List Char) : List Char :=
  match lastIndexOf l '.' with
  | none => l
  | some i => if i = 0 then l else l.take i

/-- Value of a (possibly empty) string of decimal digits, most significant
first. -/
def digitsVal (l : List Char) : Nat :=
  l.foldl (fun a c => a * 10 + (c.toNat - 48)) 0

/-- Code points of the JS `WhiteSpace` and `LineTerminator` productions — the
set trimmed by `Number(string)` conversion and by `String.prototype.trim`:
TAB LF VT FF CR SP NBSP OGHAM SPACE MARK, U+2000–U+200A, LINE SEPARATOR,
PARAGRAPH SEPARATOR, NNBSP, MMSP, IDEOGRAPHIC SPACE and the BOM U+FEFF. -/
def jsWhiteSpaceCodes : List Nat :=
  [9, 10, 11, 12, 13, 32, 160, 5760,
   8192, 8193, 8194, 8195, 8196, 8197, 8198, 8199, 8200, 8201, 8202,
   8232, 8233, 8239, 8287, 12288, 65279]

/-- JS whitespace test (see `jsWhiteSpaceCodes`). -/
def jsIsWhiteSpace (c : Char) : Bool :=
  jsWhiteSpaceCodes.contains c.toNat

/-- Result of JS `Number(string)`: NaN, a signed infinity (`inf true` is
`-Infinity`), or a finite value kept as an exact rational, per the number
convention in the module header. -/
inductive JsNum where
  | nan : JsNum
  | inf : Bool → JsNum
  | fin : Rat → JsNum
deriving Repr, DecidableEq

/-- Numeric value of a hexadecimal digit `0-9a-fA-F` (also used for the
octal and binary digit subsets). -/
def hexDigitVal (c : Char) : Nat :=
  if c.isDigit then c.toNat - 48
  else if 97 ≤ c.toNat then c.toNat - 87
  else c.toNat - 55

def isHexDigit (c : Char) : Bool :=
  c.isDigit || (97 ≤ c.toNat && c.toNat ≤ 102) || (65 ≤ c.toNat && c.toNat ≤ 70)

def isOctalDigit (c : Char) : Bool :=
  48 ≤ c.toNat && c.toNat ≤ 55

def isBinaryDigit (c : Char) : Bool :=
  c.toNat = 48 || c.toNat = 49

/-- Value of a digit string in base `b`, most significant first (the digits
are validated by the caller). -/
def baseDigitsVal (b : Nat) (l : List Char) : Nat :=
  l.foldl (fun a c => a * b + hexDigitVal c) 0

/-- The `ExponentPart?` of the decimal literal grammar, matched against the
whole remaining input: empty input means exponent `0`; otherwise `e`/`E`, an
optional sign and at least one decimal digit; anything else is a syntax
error (`none`). -/
def parseExponent : List Char → Option Int
  | [] => some 0
  | e :: rest =>
    if e = 'e' ∨ e = 'E' then
      match rest with
      | '+' :: ds =>
        if ds ≠ [] ∧ ds.all (·.isDigit) then some ((digitsVal ds : Int)) else none
      | '-' :: ds =>
        if ds ≠ [] ∧ ds.all (·.isDigit) then some (-(digitsVal ds : Int)) else none
      | ds =>
        if ds ≠ [] ∧ ds.all (·.isDigit) then some ((digitsVal ds : Int)) else none
    else none

/-- Exact value of `q × 10^e`. -/
def applyExp (q : Rat) (e : Int) : Rat :=
  if 0 ≤ e then q * 10 ^ e.toNat else q / 10 ^ (-e).toNat

/-- `StrUnsignedDecimalLiteral` without its `Infinity` alternative: decimal
digits with optional fraction and optional exponent (`digits[.digits][exp]`,
`digits.[exp]`, `.digits[exp]`), matched against the whole input; `none` for
a syntax error. -/
def parseUnsignedDec (l : List Char) : Option Rat :=
  let intPart := l.takeWhile (·.isDigit)
  let rest := l.dropWhile (·.isDigit)
  match rest with
  | '.' :: rest2 =>
    let frac := rest2.takeWhile (·.isDigit)
    let rest3 := rest2.dropWhile (·.isDigit)
    if intPart.isEmpty && frac.isEmpty then none
    else
      match parseExponent rest3 with
      | some e =>
        some (applyExp ((digitsVal intPart : Rat) + (digitsVal frac : Rat) / (10 ^ frac.length)) e)
      | none => none
  | _ =>
    if intPart.isEmpty then none
    else
      match parseExponent rest with
      | some e => some (applyExp ((digitsVal intPart : Rat)) e)
      | none => none

/-- Body of a signed `StrDecimalLiteral`, the sign already consumed:
`Infinity` or an unsigned decimal literal.  The radix-prefixed integer forms
do not admit a sign in the grammar, so they are absent here
(`Number("-0x10")` is NaN). -/
def jsSigned (neg : Bool) (r : List Char) : JsNum :=
  if r = "Infinity".data then JsNum.inf neg
  else
    match parseUnsignedDec r with
    | some q => JsNum.fin (if neg then -q else q)
    | none => JsNum.nan

/-- An unsigned `StrNumericLiteral`: `Infinity`, a radix-prefixed integer
(`0x`/`0X` hexadecimal, `0o`/`0O` octal, `0b`/`0B` binary, each with at least
one digit), or an unsigned decimal literal. -/
def jsUnsignedValue (t : List Char) : JsNum :=
  if t = "Infinity".data then JsNum.inf false
  else if 2 ≤ t.length ∧ t.headD ' ' = '0' ∧ (t.getD 1 ' ' = 'x' ∨ t.getD 1 ' ' = 'X') then
    (if (t.drop 2) ≠ [] ∧ (t.drop 2).all isHexDigit then
      JsNum.fin ((baseDigitsVal 16 (t.drop 2) : Rat))
    else JsNum.nan)
  else if 2 ≤ t.length ∧ t.headD ' ' = '0' ∧ (t.getD 1 ' ' = 'o' ∨ t.getD 1 ' ' = 'O') then
    (if (t.drop 2) ≠ [] ∧ (t.drop 2).all isOctalDigit then
      JsNum.fin ((baseDigitsVal 8 (t.drop 2) : Rat))
    else JsNum.nan)
  else if 2 ≤ t.length ∧ t.headD ' ' = '0' ∧ (t.getD 1 ' ' = 'b' ∨ t.getD 1 ' ' = 'B') then
    (if (t.drop 2) ≠ [] ∧ (t.drop 2).all isBinaryDigit then
      JsNum.fin ((baseDigitsVal 2 (t.drop 2) : Rat))
    else JsNum.nan)
  else
    match parseUnsignedDec t with
    | some q => JsNum.fin q
    | none => JsNum.nan

/-- Model of JS `Number(str)` string conversion (`StringNumericLiteral`): trim
the JS whitespace set; an empty remainder is `+0`; otherwise the whole
remainder must match the grammar — optional sign followed by `Infinity` or a
decimal literal, or an unsigned radix-prefixed integer; everything else is
NaN.  Finite values are exact rationals (module header convention). -/
def jsNumber (l : List Char) : JsNum :=
  let t := ((l.dropWhile jsIsWhiteSpace).reverse.dropWhile jsIsWhiteSpace).reverse
  match t with
  | [] => JsNum.fin 0
  | a :: r =>
    if a = '+' then jsSigned false r
    else if a = '-' then jsSigned true r
    else jsUnsignedValue (a :: r)

/-- Model of `parseWeight` (src/index.js:33-40).  `d` is the configured
`rarityDelimiter` (the single character of the config string `"#"`).
`Number(s) || 1` maps NaN and `±0` to `1` and keeps every other double —
negative values and the infinities included — so the weight is a `JsNum`
(never `nan`: NaN is already replaced by `1` here). -/
def parseWeight (d : Char) (filename : String) : String × JsNum :=
  let base := pathParseName filename.data
  match lastIndexOf base d with
  | none => (⟨base⟩, JsNum.fin 1)
  | some idx =>
    let name := base.take idx
    let weight :=
      match jsNumber (base.drop (idx + 1)) with
      | JsNum.nan => JsNum.fin 1
      | JsNum.fin q => if q = 0 then JsNum.fin 1 else JsNum.fin q
      | JsNum.inf s => JsNum.inf s
    (⟨name⟩, weight)

/-- Collapse a parsed weight to the `Rat` stored in `Element.weight`.
`parseWeight` never yields `nan`; an infinite weight (a filename remainder
reading `Infinity` after the delimiter) has no rational value — it lies
outside the exact-rational number convention of the module header, and no
theorem in this development depends on the representative chosen for it
here. -/
def weightRat : JsNum → Rat
  | JsNum.fin q => q
  | JsNum.inf _ => 1
  | JsNum.nan => 1

/-- Model of `toTitle` (src/index.js:32): strip one leading run of digits
followed by an underscore, replace underscores by spaces, trim (JS
`String.prototype.trim` removes the same whitespace set as `Number`). -/
def toTitle (s : String) : String :=
  let l := s.data
  let ds := l.takeWhile (·.isDigit)
  let rest := l.dropWhile (·.isDigit)
  let stripped := if !ds.isEmpty && rest.head? = some '_' then rest.tail else l
  let replaced := stripped.map (fun c => if c = '_' then ' ' else c)
  ⟨((replaced.dropWhile jsIsWhiteSpace).reverse.dropWhile jsIsWhiteSpace).reverse⟩

/-- Trait element as built by `readLayers` (src/index.js:54-63). -/
structure Element where
  id : String
  layer : String
  name : String
  weight : Rat
  path : String
deriving Repr, DecidableEq

instance : Inhabited Element := ⟨{ id := "", layer := "", name := "", weight := 1, path := "" }⟩

/-- One catalog layer (src/index.js:65-68). -/
structure Layer where
  id : String
  elements : List Element
deriving Repr, DecidableEq

/-- Selection entry: a trait element plus the render-order index attached by
`pickTraitsForLayers` via `{ ...el, _order: order++ }`. -/
structure Picked extends Element where
  _order : Nat
deriving Repr, DecidableEq

instance : Inhabited Picked := ⟨{ (default : Element) with _order := 0 }⟩

/-- Static configuration (src/config.js) as read by src/index.js:7-26.
`rarityDelimiter` is the single character of the configured string; the rule
tables are insertion-ordered association lists, like JS object literals. -/
structure Config where
  editionSize : Nat
  shuffleMetadata : Bool
  rarityDelimiter : Char
  uniqueDnaTorrance : Nat
  namePrefix : String
  description : String
  baseUri : String
  incompatible : List (String × List String)
  requires : List (String × List String)
  mandatoryLayers : List String
deriving Repr

/-- The repository's own configuration (src/config.js). -/
def config : Config :=
  { editionSize := 10
    shuffleMetadata := true
    rarityDelimiter := '#'
    uniqueDnaTorrance := 10000
    namePrefix := "Piggos"
    description := "A fully generative collection bringing back the classic degen vibes on the mother chain."
    baseUri := "ipfs://__REPLACE_WITH_YOUR_CID__"
    incompatible := [("Base:Alien", ["Head:Crown"]), ("Clothes:Armor", ["Mouth:Smile"])]
    requires := [("Eye:Laser", ["Mouth:Fangs"])]
    mandatoryLayers := ["Background", "Base"] }

/-- Pure core of `readLayers` (src/index.js:42-75): given the already
enumerated, directory-sorted `(dirName, pngFiles)` pairs, build the catalog.
Directories without PNG files are skipped. -/
def mkLayers (d : Char) (dirs : List (String × List String)) : List Layer :=
  dirs.foldr
    (fun (dir, files) layers =>
      if files.isEmpty then layers
      else
        { id := toTitle dir
          elements := files.map (fun f =>
            let nw := parseWeight d f
            { id := toTitle dir ++ ":" ++ nw.1
              layer := toTitle dir
              name := nw.1
              weight := weightRat nw.2
              path := dir ++ "/" ++ f }) } :: layers)
    []

/-- Model of `weightedPick`'s subtraction loop (src/index.js:80-82):
`for (const e of elements) if ((r -= e.weight) <= 0) return e`. -/
def weightedPickGo : List Element → Rat → Option Element
  | [], _ => none
  | e :: rest, r => if r - e.weight ≤ 0 then some e else weightedPickGo rest (r - e.weight)

/-- Model of `weightedPick` (src/index.js:77-84) with the `Math.random()`
draw `rnd` made explicit: `r = rnd * total`, then the subtraction loop, with
the last element as rounding fallback.  (On an empty list the JS code would
yield `undefined`; the catalog never contains an empty layer, and the model
returns `default` there.) -/
def weightedPick (elements : List Element) (rnd : Rat) : Element :=
  let total := elements.foldl (fun sum e => sum + e.weight) 0
  match weightedPickGo elements (rnd * total) with
  | some e => e
  | none => elements.getD (elements.length - 1) default

/-- Model of `traitKey` (src/index.js:86-88). -/
def traitKey (layerName valueName : String) : String :=
  layerName ++ ":" ++ valueName

/-- JS `Set.add`: append unless already present (insertion order kept). -/
def setAdd [DecidableEq α] (l : List α) (x : α) : List α :=
  if x ∈ l then l else l ++ [x]

/-- The insertion-ordered key set `new Set(selection.map(s => traitKey(...)))`
built by both rule checkers (src/index.js:92,103). -/
def chosenKeys (selection : List Picked) : List String :=
  selection.foldl (fun acc s => setAdd acc (traitKey s.layer s.name)) []

/-- Model of `violatesIncompatibilities` (src/index.js:90-100). -/
def violatesIncompatibilities (cfg : Config) (selection : List Picked) : Bool :=
  let chosen := chosenKeys selection
  chosen.any (fun k =>
    match cfg.incompatible.lookup k with
    | some bad => bad.any (fun b => chosen.contains b)
    | none => false)

/-- JS `Map.set`: overwrite in place if the key is present, else append. -/
def mapSet (m : List (String × String)) (k v : String) : List (String × String) :=
  if m.any (fun p => p.1 = k) then
    m.map (fun p => if p.1 = k then (k, v) else p)
  else
    m ++ [(k, v)]

/-- Model of `enforceRequirements` (src/index.js:102-115).  A target
`"B:y"` is split at `":"`; the part after the first colon is the forced
value.  (A target with no colon gives JS `undefined` as the value, which the
code would stringify as `"undefined"` downstream; the model uses that string
directly.) -/
def enforceRequirements (cfg : Config) (selection : List Picked) : List (String × String) :=
  (chosenKeys selection).foldl
    (fun mustAdd k =>
      match cfg.requires.lookup k with
      | some reqs =>
        reqs.foldl
          (fun m target =>
            let parts := (jsSplitOnChar ':' target.data).map (fun l => (⟨l⟩ : String))
            mapSet m (parts.headD "") ((parts.get? 1).getD "undefined"))
          mustAdd
      | none => mustAdd)
    []

/-- Model of `dnaFromSelection` (src/index.js:117-124): stable sort by layer
name (JS `localeCompare` modelled as the lexicographic string order), then
join the trait keys with `"|"`. -/
def dnaFromSelection (selection : List Picked) : String :=
  joinSep "|"
    ((selection.insertionSort (fun a b => charListLe a.layer.data b.layer.data = true)).map
      (fun s => traitKey s.layer s.name))

/-- Pure core of `composeImage` (src/index.js:126-150): the asset paths in
stacking order — the selection stably sorted by `_order`. -/
def composeOrder (selection : List Picked) : List String :=
  (selection.insertionSort (fun a b => a._order ≤ b._order)).map (·.path)

/-- Metadata record (src/index.js:160-167).  `config.js` defines no
`extraMetadata`, so the spread `...extraMetadata` spreads `undefined` and adds
nothing. -/
structure Meta where
  name : String
  description : String
  image : String
  edition : Nat
  attributes : List (String × String)
deriving Repr, DecidableEq

instance : Inhabited Meta :=
  ⟨{ name := "", description := "", image := "", edition := 0, attributes := [] }⟩

/-- Model of `metadataForToken` (src/index.js:152-168): attributes in stable
`_order` order as `(trait_type, value)` pairs. -/
def metadataForToken (cfg : Config) (tokenId : Nat) (selection : List Picked)
    (imageUri : String) : Meta :=
  { name := cfg.namePrefix ++ " #" ++ natToString tokenId
    description := cfg.description
    image := imageUri
    edition := tokenId
    attributes :=
      (selection.insertionSort (fun a b => a._order ≤ b._order)).map
        (fun s => (s.layer, s.name)) }

/-- Initial per-layer draw loop of `pickTraitsForLayers` (src/index.js:172-177):
one `weightedPick` per layer, `_order` assigned by the running counter, one
`Math.random()` value consumed per layer starting at oracle index `k`. -/
def initialPicksGo (rand : Nat → Rat) : List Layer → Nat → Nat → List Picked
  | [], _, _ => []
  | layer :: rest, k, order =>
    { weightedPick layer.elements (rand k) with _order := order } ::
      initialPicksGo rand rest (k + 1) (order + 1)

/-- Highest-weight default used by the mandatory-layer branch
(src/index.js:186): stable descending sort by weight, first element.  The JS
comparator `(a, b) => b.weight - a.weight` keeps the first occurrence among
equal weights. -/
def highestWeightElement (elements : List Element) : Element :=
  (elements.insertionSort (fun a b => b.weight ≤ a.weight)).headD default

/-- Mandatory-layer branch of `pickTraitsForLayers` (src/index.js:179-191),
threading the `order` counter. -/
def mandatoryStep (cfg : Config) (layers : List Layer)
    (st : List Picked × Nat) : List Picked × Nat :=
  cfg.mandatoryLayers.foldl
    (fun (st : List Picked × Nat) m =>
      if (st.1.find? (fun p => p.layer = m)).isSome then st
      else
        match layers.find? (fun l => l.id = m) with
        | some layer => (st.1 ++ [{ highestWeightElement layer.elements with _order := st.2 }], st.2 + 1)
        | none => st)
    st

/-- In-place replacement `picked[idx] = { ...picked[idx], name, id }` at the
first index with the given layer (src/index.js:197-203). -/
def replaceAt (layerName valueName : String) : List Picked → List Picked
  | [] => []
  | p :: rest =>
    if p.layer = layerName then
      { p with name := valueName, id := traitKey layerName valueName } :: rest
    else
      p :: replaceAt layerName valueName rest

/-- One iteration of the requirement-application loop
(src/index.js:196-212): replace in place when the layer is already picked
(`findIndex ≥ 0`), otherwise append the catalog element with the required
value when both exist. -/
def applyOverride (layers : List Layer) (st : List Picked × Nat)
    (entry : String × String) : List Picked × Nat :=
  let layerName := entry.1
  let valueName := entry.2
  if st.1.any (fun p => p.layer = layerName) then
    (replaceAt layerName valueName st.1, st.2)
  else
    match layers.find? (fun l => l.id = layerName) with
    | some layer =>
      match layer.elements.find? (fun e => e.name = valueName) with
      | some found => (st.1 ++ [{ found with _order := st.2 }], st.2 + 1)
      | none => st
    | none => st

/-- Model of `pickTraitsForLayers` (src/index.js:170-216). -/
def pickTraitsForLayers (cfg : Config) (layers : List Layer) (rand : Nat → Rat)
    (k : Nat) : List Picked × Nat :=
  let picked := initialPicksGo rand layers k 0
  let st := mandatoryStep cfg layers (picked, layers.length)
  let mustAdd := enforceRequirements cfg st.1
  ((mustAdd.foldl (applyOverride layers) st).1, k + layers.length)

/-- JS `Set.has` on the dna set (the stored values are strings or
`undefined`). -/
def dnaSetHas (dnaSet : List (Option String)) (dna : Option String) : Bool :=
  dnaSet.contains dna

/-- Result of one per-token uniqueness search (the `do … while` of
src/index.js:279-285): the last `selection`, the value of the `dna` variable
at exit, the next `Math.random()` index, and the final `attempts` counter. -/
structure FindResult where
  selection : List Picked
  dna : Option String
  k : Nat
  attempts : Nat
deriving Repr, DecidableEq

/-- Model of the `do … while` loop of src/index.js:279-285.  Faithful detail:
`continue` on an incompatible selection skips the assignment to `dna`, so the
loop condition `dnaSet.has(dna) && attempts < uniqueDnaTorrance` then tests
the *stale* `dna` — `none` (JS `undefined`) while no compatible selection has
been produced yet in this edition.  `fuel` only bounds the recursion; the
guard `attempts < uniqueDnaTorrance` makes `fuel = uniqueDnaTorrance` always
sufficient. -/
def findLoop (cfg : Config) (layers : List Layer) (rand : Nat → Rat)
    (dnaSet : List (Option String)) :
    Nat → Nat → Nat → Option String → FindResult
  | fuel, k, attempts, dna =>
    let pk := pickTraitsForLayers cfg layers rand k
    let selection := pk.1
    let k' := pk.2
    let attempts' := attempts + 1
    let dna' := if violatesIncompatibilities cfg selection then dna
                else some (dnaFromSelection selection)
    if dnaSetHas dnaSet dna' && decide (attempts' < cfg.uniqueDnaTorrance) then
      match fuel with
      | 0 => ⟨selection, dna', k', attempts'⟩
      | fuel + 1 => findLoop cfg layers rand dnaSet fuel k' attempts' dna'
    else
      ⟨selection, dna', k', attempts'⟩

/-- Accepted token: its edition number, the accepted selection and the value
the code added to the dna set for it. -/
structure Token where
  edition : Nat
  selection : List Picked
  dna : Option String
deriving Repr, DecidableEq

/-- Image URI construction (src/index.js:298-300). -/
def imageUriFor (cfg : Config) (edition : Nat) : String :=
  if "/".data.isSuffixOf cfg.baseUri.data then cfg.baseUri ++ natToString edition ++ ".png"
  else cfg.baseUri ++ "/" ++ natToString edition ++ ".png"

/-- Orchestrator state across the edition loop of src/index.js:269-310.
`metadataDir` holds the per-token metadata files keyed by filename number;
`composed` the ordered asset-path stacks handed to the compositor. -/
structure GenState where
  dnaSet : List (Option String)
  tokens : List Token
  allMetadata : List Meta
  metadataDir : List (Nat × Meta)
  imagePaths : List String
  composed : List (List String)
  failures : Nat
  k : Nat
deriving Repr, DecidableEq

/-- One iteration of the edition loop (src/index.js:275-310). -/
def genEdition (cfg : Config) (layers : List Layer) (rand : Nat → Rat)
    (st : GenState) (edition : Nat) : GenState :=
  let r := findLoop cfg layers rand st.dnaSet cfg.uniqueDnaTorrance st.k 0 none
  if cfg.uniqueDnaTorrance ≤ r.attempts then
    { st with failures := st.failures + 1, k := r.k }
  else
    let imgPath := "images/" ++ natToString edition ++ ".png"
    let meta := metadataForToken cfg edition r.selection (imageUriFor cfg edition)
    { dnaSet := setAdd st.dnaSet r.dna
      tokens := st.tokens ++ [⟨edition, r.selection, r.dna⟩]
      allMetadata := st.allMetadata ++ [meta]
      metadataDir := st.metadataDir ++ [(edition, meta)]
      imagePaths := st.imagePaths ++ [imgPath]
      composed := st.composed ++ [composeOrder r.selection]
      failures := st.failures
      k := r.k }

/-- The whole generation loop, editions `1 .. editionSize`
(src/index.js:275-310). -/
def genRun (cfg : Config) (layers : List Layer) (rand : Nat → Rat) : GenState :=
  (List.range' 1 cfg.editionSize).foldl (genEdition cfg layers rand)
    { dnaSet := [], tokens := [], allMetadata := [], metadataDir := []
      imagePaths := [], composed := [], failures := 0, k := 0 }

/-- JS `Math.floor` on a nonnegative number, as a `Nat`. -/
def jsFloorNat (q : Rat) : Nat :=
  q.floor.toNat

/-- The destructuring swap `[a[i], a[j]] = [a[j], a[i]]` (src/index.js:227)
for in-bounds indices. -/
def listSwap [Inhabited α] (l : List α) (i j : Nat) : List α :=
  (l.set i (l.getD j default)).set j (l.getD i default)

/-- Fisher–Yates inner loop of `shuffle` (src/index.js:225-228): at loop
index `i` (descending), swap with `j = Math.floor(Math.random() * (i + 1))`.
The recursion argument is the current loop index. -/
def shuffleGo [Inhabited α] (rand : Nat → Rat) : List α → Nat → Nat → List α × Nat
  | a, 0, k => (a, k)
  | a, i + 1, k =>
    let j := jsFloorNat (rand k * (i + 2))
    shuffleGo rand (listSwap a (i + 1) j) i (k + 1)

/-- Model of `shuffle` (src/index.js:224-230). -/
def shuffle [Inhabited α] (rand : Nat → Rat) (array : List α) (k : Nat) :
    List α × Nat :=
  shuffleGo rand array (array.length - 1) k

/-- Model of the shuffle-rewrite block (src/index.js:313-323): empty the
metadata directory, then for every `newId` write the record drawn from
position `indices[newId - 1] - 1` of `allMetadata` with `name`, `edition` and
`image` rebound to `newId`. -/
def applyShuffle (cfg : Config) (rand : Nat → Rat) (st : GenState) : GenState :=
  if cfg.shuffleMetadata then
    let n := st.allMetadata.length
    let indices0 := (List.range n).map (· + 1)
    let sh := shuffle rand indices0 st.k
    let indices := sh.1
    { st with
      k := sh.2
      metadataDir :=
        (List.range n).map (fun m =>
          let newId := m + 1
          let originalIdx := indices.getD m 0 - 1
          let meta0 := st.allMetadata.getD originalIdx default
          (newId,
            { meta0 with
              name := cfg.namePrefix ++ " #" ++ natToString newId
              edition := newId
              image := imageUriFor cfg newId })) }
  else
    st

/-- Model of `main` (src/index.js:264-339) over an already loaded catalog:
the generation loop followed by the optional metadata shuffle.  (Directory
setup, the `_metadata.json` aggregate, the dna log and the preview sheet are
pure I/O around the returned state.) -/
def mainRun (cfg : Config) (layers : List Layer) (rand : Nat → Rat) : GenState :=
  applyShuffle cfg rand (genRun cfg layers rand)

instance : Inhabited Token := ⟨{ edition := 0, selection := [], dna := none }⟩

/-- Catalog well-formedness established by `readLayers`: every layer carries
at least one element, and every element's `layer` field is its layer's id. -/
def wellFormed (layers : List Layer) : Prop :=
  ∀ l ∈ layers, l.elements ≠ [] ∧ ∀ e ∈ l.elements, e.layer = l.id

instance (layers : List Layer) : Decidable (wellFormed layers) := by
  unfold wellFormed; infer_instance

/-- Projection of every `Picked` field except `name` and `id`. -/
def fieldsExceptNameId (p : Picked) : String × Rat × String × Nat :=
  (p.layer, p.weight, p.path, p._order)

/-- Failing input for the incompatibility claim: one edition, a two-layer
catalog whose only possible selection violates the repository's own rule
`"Base:Alien" -> ["Head:Crown"]`. -/
def cfgC1 : Config :=
  { config with editionSize := 1, uniqueDnaTorrance := 10, shuffleMetadata := false }

/-- Catalog for the incompatibility failing input. -/
def layersC1 : List Layer :=
  mkLayers '#' [("Base", ["Alien.png"]), ("Head", ["Crown.png"])]

/-- Failing input for the search-loop claim: the only possible selection
violates `"Clothes:Armor" -> ["Mouth:Smile"]`. -/
def cfgC2 : Config :=
  { config with editionSize := 1, uniqueDnaTorrance := 3, shuffleMetadata := false, mandatoryLayers := [] }

/-- Catalog for the search-loop failing input. -/
def layersC2 : List Layer :=
  mkLayers '#' [("Clothes", ["Armor.png"]), ("Mouth", ["Smile.png"])]

/-- Failing input for the fingerprint-cardinality claim: trait names
containing `:` and `|` make two distinct selections canonicalize to the same
string, and the first edition's incompatible pick is accepted with a stale
`undefined` dna. -/
def cfgC3 : Config :=
  { config with editionSize := 2, uniqueDnaTorrance := 5, shuffleMetadata := false, incompatible := [("A:x|B:y", ["B:z"])], requires := [], mandatoryLayers := [] }

/-- Catalog for the fingerprint failing input. -/
def layersC3 : List Layer :=
  mkLayers '#' [("A", ["x|B:y.png", "x.png"]), ("B", ["z.png", "y|B:z.png"])]

/-- Random oracle for the fingerprint failing input: the first edition draws
the first element of each layer, the second edition the second. -/
def randC3 : Nat → Rat := fun n => if n ≤ 1 then 0 else 6/10

/-- Counterexample input for the silent-enforcement claim: the requirement
rule targets layer `B` (which exists) with value `zzz` (which does not). -/
def cfgC5 : Config :=
  { config with requires := [("A:a1", ["B:zzz"])], incompatible := [], mandatoryLayers := [] }

/-- Catalog for the silent-enforcement counterexample. -/
def layersC5 : List Layer :=
  mkLayers '#' [("A", ["a1.png"]), ("B", ["b1.png"])]

/-- Counterexample input for the requirement-propagation claim: rules
`"A:a1" -> ["B:b2"]` and `"C:c1" -> ["B:b3"]` both fire; the `Map` write for
`C:c1` overwrites the one for `A:a1`. -/
def cfgC6 : Config :=
  { config with incompatible := [], mandatoryLayers := [], requires := [("A:a1", ["B:b2"]), ("C:c1", ["B:b3"])], editionSize := 1, uniqueDnaTorrance := 5, shuffleMetadata := false }

/-- Catalog for the requirement-propagation counterexample. -/
def layersC6 : List Layer :=
  mkLayers '#' [("A", ["a1.png"]), ("B", ["b1.png", "b2.png", "b3.png"]), ("C", ["c1.png"])]

/-- Witness input for the shuffle claim: two tokens, one one-element layer
pair, and a random oracle that swaps the two metadata records. -/
def cfgC8 : Config :=
  { config with editionSize := 2, uniqueDnaTorrance := 5, incompatible := [], requires := [], mandatoryLayers := [] }

/-- Catalog for the shuffle witness. -/
def layersC8 : List Layer :=
  mkLayers '#' [("A", ["x.png", "y.png"])]

/-- Random oracle for the shuffle witness. -/
def randC8 : Nat → Rat := fun n => if n = 1 then 6/10 else 0

unseal Rat.mul Rat.add Rat.sub Rat.inv in
/-- C1: the claim says a selection containing both sides of an
incompatibility rule is always rejected by the generation loop and never
accepted nor counted.  The code contradicts its own `// reject incompatible
combos` intent: `continue` in the `do … while` jumps to the loop condition,
which reads the stale `dna` (`undefined` at the start of an edition), so the
condition is false and the loop exits; the incompatible selection is then
accepted as token 1 and `undefined` is added to the dna set. -/
theorem c1_incompatible_selection_accepted :
    (genRun cfgC1 layersC1 (fun _ => 0)).tokens.length = 1 ∧
    violatesIncompatibilities cfgC1
      (((genRun cfgC1 layersC1 (fun _ => 0)).tokens.getD 0 default).selection) = true ∧
    ((genRun cfgC1 layersC1 (fun _ => 0)).tokens.getD 0 default).dna = none ∧
    (genRun cfgC1 layersC1 (fun _ => 0)).failures = 0 ∧
    (genRun cfgC1 layersC1 (fun _ => 0)).dnaSet = [none] := by
  decide

unseal Rat.mul Rat.add Rat.sub Rat.inv in
/-- C2: the claim says the per-token search loop exits with success exactly
when the current selection is compatible and its fingerprint is novel.  At
this input the loop exits after one attempt (success: `attempts = 1 <
uniqueDnaTorrance`) although the current selection is incompatible and no
fingerprint was ever computed for it (`dna` is still `undefined`): the
`continue` skips the `dna` assignment and the loop condition tests the stale
`dna` against the seen-set. -/
theorem c2_search_loop_exits_success_on_incompatible_selection :
    (findLoop cfgC2 layersC2 (fun _ => 0) [] cfgC2.uniqueDnaTorrance 0 0 none).attempts = 1 ∧
    (findLoop cfgC2 layersC2 (fun _ => 0) [] cfgC2.uniqueDnaTorrance 0 0 none).attempts
      < cfgC2.uniqueDnaTorrance ∧
    violatesIncompatibilities cfgC2
      (findLoop cfgC2 layersC2 (fun _ => 0) [] cfgC2.uniqueDnaTorrance 0 0 none).selection = true ∧
    (findLoop cfgC2 layersC2 (fun _ => 0) [] cfgC2.uniqueDnaTorrance 0 0 none).dna = none := by
  decide

unseal Rat.mul Rat.add Rat.sub Rat.inv in
/-- C3: the claim says no two accepted tokens' selections canonicalize to the
same fingerprint.  At this input the first edition's incompatible selection
is accepted through the stale-dna exit (recording `undefined` instead of its
fingerprint), and the second edition's distinct, compatible selection
canonicalizes to the very same string `"A:x|B:y|B:z"`; both are accepted.
(The cardinality half of the claim holds here: 2 set entries, 2 tokens.) -/
theorem c3_two_accepted_tokens_share_fingerprint :
    (genRun cfgC3 layersC3 randC3).tokens.length = 2 ∧
    (genRun cfgC3 layersC3 randC3).dnaSet.length = 2 ∧
    dnaFromSelection (((genRun cfgC3 layersC3 randC3).tokens.getD 0 default).selection) =
      dnaFromSelection (((genRun cfgC3 layersC3 randC3).tokens.getD 1 default).selection) ∧
    ((genRun cfgC3 layersC3 randC3).tokens.getD 0 default).selection ≠
      ((genRun cfgC3 layersC3 randC3).tokens.getD 1 default).selection := by
  decide

theorem isDigit_toNat {c : Char} (h : c.isDigit = true) :
    48 ≤ c.toNat ∧ c.toNat ≤ 57 := by
  simp only [Char.isDigit, ge_iff_le, Bool.and_eq_true, decide_eq_true_eq] at h
  exact ⟨UInt32.le_toNat_of_le (by decide) h.1, UInt32.toNat_le_of_le (by decide) h.2⟩

theorem digit_not_jsws {c : Char} (h : c.isDigit = true) : jsIsWhiteSpace c = false := by
  have hb := isDigit_toNat h
  have hall : ∀ k ∈ jsWhiteSpaceCodes, k < 48 ∨ 57 < k := by decide
  rcases Bool.eq_false_or_eq_true (jsIsWhiteSpace c) with hw | hw
  · exfalso
    have hmem : c.toNat ∈ jsWhiteSpaceCodes := by
      simpa [jsIsWhiteSpace] using hw
    rcases hall _ hmem with h' | h' <;> omega
  · exact hw

theorem dropWhile_eq_self_all {p : Char → Bool} {l : List Char}
    (h : ∀ c ∈ l, p c = false) : l.dropWhile p = l := by
  cases l with
  | nil => rfl
  | cons a t =>
    rw [List.dropWhile_cons, h a (List.mem_cons_self a t)]
    simp

theorem takeWhile_eq_self_all {p : Char → Bool} {l : List Char}
    (h : ∀ c ∈ l, p c = true) : l.takeWhile p = l := by
  induction l with
  | nil => rfl
  | cons a t ih =>
    rw [List.takeWhile_cons, h a (List.mem_cons_self a t)]
    simp [ih (fun c hc => h c (List.mem_cons_of_mem a hc))]

theorem dropWhile_eq_nil_all {p : Char → Bool} {l : List Char}
    (h : ∀ c ∈ l, p c = true) : l.dropWhile p = [] := by
  induction l with
  | nil => rfl
  | cons a t ih =>
    rw [List.dropWhile_cons, h a (List.mem_cons_self a t)]
    simp [ih (fun c hc => h c (List.mem_cons_of_mem a hc))]

theorem trim_eq_self {p : Char → Bool} {l : List Char} (h : ∀ c ∈ l, p c = false) :
    ((l.dropWhile p).reverse.dropWhile p).reverse = l := by
  rw [dropWhile_eq_self_all h,
    dropWhile_eq_self_all (fun c hc => h c (List.mem_reverse.mp hc)),
    List.reverse_reverse]

theorem applyExp_zero (q : Rat) : applyExp q 0 = q := by
  unfold applyExp
  rw [if_pos (le_refl (0 : Int))]
  norm_num

theorem parseUnsignedDec_digits {ds : List Char} (h1 : ds ≠ [])
    (h2 : ∀ c ∈ ds, c.isDigit = true) :
    parseUnsignedDec ds = some ((digitsVal ds : Rat)) := by
  rcases List.exists_cons_of_ne_nil h1 with ⟨a, t, rfl⟩
  unfold parseUnsignedDec
  rw [takeWhile_eq_self_all h2, dropWhile_eq_nil_all h2]
  show some (applyExp ((digitsVal (a :: t) : Rat)) 0) = some ((digitsVal (a :: t) : Rat))
  rw [applyExp_zero]

theorem digits_ne_infinity {ds : List Char}
    (h2 : ∀ c ∈ ds, c.isDigit = true) : ds ≠ "Infinity".data := by
  intro h
  subst h
  exact absurd (h2 'I' (by decide)) (by decide)

theorem jsUnsignedValue_digits {ds : List Char} (h1 : ds ≠ [])
    (h2 : ∀ c ∈ ds, c.isDigit = true) :
    jsUnsignedValue ds = JsNum.fin ((digitsVal ds : Rat)) := by
  have hd1 : 2 ≤ ds.length → (ds.getD 1 ' ').isDigit = true := by
    intro hlen
    rw [List.getD_eq_getElem ds ' ' hlen]
    exact h2 _ (List.getElem_mem hlen)
  unfold jsUnsignedValue
  rw [if_neg (digits_ne_infinity h2)]
  rw [if_neg (fun hc => by
    have hdig := hd1 hc.1
    rcases hc.2.2 with h' | h' <;> rw [h'] at hdig <;> exact absurd hdig (by decide))]
  rw [if_neg (fun hc => by
    have hdig := hd1 hc.1
    rcases hc.2.2 with h' | h' <;> rw [h'] at hdig <;> exact absurd hdig (by decide))]
  rw [if_neg (fun hc => by
    have hdig := hd1 hc.1
    rcases hc.2.2 with h' | h' <;> rw [h'] at hdig <;> exact absurd hdig (by decide))]
  rw [parseUnsignedDec_digits h1 h2]

theorem jsNumber_digits {ds : List Char} (h1 : ds ≠ [])
    (h2 : ∀ c ∈ ds, c.isDigit = true) :
    jsNumber ds = JsNum.fin ((digitsVal ds : Rat)) := by
  unfold jsNumber
  rw [trim_eq_self (fun c hc => digit_not_jsws (h2 c hc))]
  rcases List.exists_cons_of_ne_nil h1 with ⟨a, t, rfl⟩
  have ha := h2 a (List.mem_cons_self a t)
  dsimp only
  rw [if_neg (fun hplus => absurd ha (by rw [hplus]; decide)),
    if_neg (fun hminus => absurd ha (by rw [hminus]; decide))]
  exact jsUnsignedValue_digits h1 h2

theorem jsNumber_neg_digits {ds : List Char} (h1 : ds ≠ [])
    (h2 : ∀ c ∈ ds, c.isDigit = true) :
    jsNumber ('-' :: ds) = JsNum.fin (-(digitsVal ds : Rat)) := by
  unfold jsNumber
  rw [trim_eq_self]
  · dsimp only
    rw [if_neg (by decide), if_pos rfl]
    unfold jsSigned
    rw [if_neg (digits_ne_infinity h2), parseUnsignedDec_digits h1 h2]
    rfl
  · intro c hc
    rcases List.mem_cons.mp hc with rfl | hc
    · decide
    · exact digit_not_jsws (h2 c hc)

theorem lastIndexOf_eq_none {l : List Char} {c : Char} (h : c ∉ l) :
    lastIndexOf l c = none := by
  induction l with
  | nil => rfl
  | cons a t ih =>
    unfold lastIndexOf
    rw [ih (fun hm => h (List.mem_cons_of_mem a hm))]
    exact if_neg (fun hac => h (List.mem_cons.mpr (Or.inl hac.symm)))

theorem lastIndexOf_append_cons {l1 l2 : List Char} {c : Char} (h : c ∉ l2) :
    lastIndexOf (l1 ++ c :: l2) c = some l1.length := by
  induction l1 with
  | nil =>
    rw [List.nil_append]
    unfold lastIndexOf
    rw [lastIndexOf_eq_none h, if_pos rfl]
    rfl
  | cons a t ih =>
    rw [List.cons_append]
    unfold lastIndexOf
    rw [ih]
    rfl

theorem pathParseName_ext {x ps : List Char} (hps : '.' ∉ ps) (hx : x ≠ []) :
    pathParseName (x ++ '.' :: ps) = x := by
  unfold pathParseName
  rw [lastIndexOf_append_cons hps]
  dsimp only
  rw [if_neg (fun h0 => hx (List.length_eq_zero.mp h0))]
  exact List.take_left x ('.' :: ps)

theorem parseWeight_split {d : Char} {nm rem : List Char} (hrem : d ∉ rem) :
    parseWeight d ⟨nm ++ d :: rem ++ ('.' :: 'p' :: 'n' :: 'g' :: [])⟩ =
      (⟨nm⟩, match jsNumber rem with
             | JsNum.nan => JsNum.fin 1
             | JsNum.fin q => if q = 0 then JsNum.fin 1 else JsNum.fin q
             | JsNum.inf s => JsNum.inf s) := by
  unfold parseWeight
  rw [show (⟨nm ++ d :: rem ++ ('.' :: 'p' :: 'n' :: 'g' :: [])⟩ : String).data
      = (nm ++ d :: rem) ++ '.' :: ('p' :: 'n' :: 'g' :: []) from by simp]
  rw [pathParseName_ext (by decide) (by simp)]
  dsimp only
  rw [lastIndexOf_append_cons hrem]
  dsimp only
  rw [List.take_left, List.drop_append 1]
  rfl

theorem parseWeight_no_delimiter {d : Char} {nm : List Char} (hnm : d ∉ nm)
    (hne : nm ≠ []) :
    parseWeight d ⟨nm ++ ('.' :: 'p' :: 'n' :: 'g' :: [])⟩ = (⟨nm⟩, JsNum.fin 1) := by
  unfold parseWeight
  rw [show (⟨nm ++ ('.' :: 'p' :: 'n' :: 'g' :: [])⟩ : String).data
      = nm ++ '.' :: ('p' :: 'n' :: 'g' :: []) from by simp]
  rw [pathParseName_ext (by decide) hne]
  dsimp only
  rw [lastIndexOf_eq_none hnm]

unseal Rat.mul Rat.add Rat.sub Rat.inv in
/-- C4: the claim says `parseWeight` yields weight 1 whenever the remainder
after the delimiter is negative.  The code computes `Number("-5") || 1 = -5`:
a negative remainder becomes a negative weight, not 1. -/
theorem c4_negative_weight_counterexample :
    parseWeight '#' "Name#-5.png" = ("Name", JsNum.fin (-5)) ∧
    (JsNum.fin (-5) ≠ JsNum.fin 1) :=
  ⟨by decide, by decide⟩

/-- C4 amended: for filenames `Name#W.png`, the parsed weight equals `W` when
the remainder is a positive decimal numeral; equals `-W` (not 1) when the
remainder is `-W` with `W` a positive numeral; equals 1 exactly on the
`|| 1` fallback, i.e. when the whole remainder fails the JS numeric-string
grammar (NaN) or parses to zero; and equals 1 when the delimiter does not
occur in the basename.  Remainders in the other grammar forms — exponent,
hexadecimal, octal, binary, `Infinity` — parse to their own nonzero values
and are not covered by the weight-1 case. -/
theorem c4_parseWeight_amended (d : Char) :
    (∀ nm ds : List Char, ds ≠ [] → (∀ c ∈ ds, c.isDigit = true) → d ∉ ds →
      0 < digitsVal ds →
      parseWeight d ⟨nm ++ d :: ds ++ ('.' :: 'p' :: 'n' :: 'g' :: [])⟩
        = (⟨nm⟩, JsNum.fin ((digitsVal ds : Rat)))) ∧
    (∀ nm ds : List Char, ds ≠ [] → (∀ c ∈ ds, c.isDigit = true) → d ∉ ds →
      d ≠ '-' → 0 < digitsVal ds →
      parseWeight d ⟨nm ++ d :: '-' :: ds ++ ('.' :: 'p' :: 'n' :: 'g' :: [])⟩
        = (⟨nm⟩, JsNum.fin (-(digitsVal ds : Rat)))) ∧
    (∀ nm rem : List Char, d ∉ rem →
      (jsNumber rem = JsNum.nan ∨ jsNumber rem = JsNum.fin 0) →
      parseWeight d ⟨nm ++ d :: rem ++ ('.' :: 'p' :: 'n' :: 'g' :: [])⟩
        = (⟨nm⟩, JsNum.fin 1)) ∧
    (∀ nm : List Char, nm ≠ [] → d ∉ nm →
      parseWeight d ⟨nm ++ ('.' :: 'p' :: 'n' :: 'g' :: [])⟩ = (⟨nm⟩, JsNum.fin 1)) := by
  refine ⟨?_, ?_, ?_, ?_⟩
  · intro nm ds h1 h2 hd hpos
    rw [parseWeight_split hd, jsNumber_digits h1 h2]
    dsimp only
    rw [if_neg (by exact_mod_cast Nat.pos_iff_ne_zero.mp hpos)]
  · intro nm ds h1 h2 hd hdm hpos
    have hd' : d ∉ '-' :: ds := by
      intro hm
      rcases List.mem_cons.mp hm with rfl | hm
      · exact hdm rfl
      · exact hd hm
    rw [parseWeight_split hd', jsNumber_neg_digits h1 h2]
    dsimp only
    rw [if_neg (by simpa using Nat.pos_iff_ne_zero.mp hpos)]
  · intro nm rem hd hjs
    rw [parseWeight_split hd]
    rcases hjs with hjs | hjs
    · rw [hjs]
    · rw [hjs]
      dsimp only
      rw [if_pos rfl]
  · intro nm hne hd
    exact parseWeight_no_delimiter hd hne

/-- Witness for the amended parseWeight theorem at `Name#30.png`. -/
theorem c4_parseWeight_amended_witness :
    ("30".data ≠ [] ∧ 0 < digitsVal "30".data) ∧
    parseWeight '#' ⟨"Name".data ++ '#' :: "30".data ++ ('.' :: 'p' :: 'n' :: 'g' :: [])⟩
      = (⟨"Name".data⟩, JsNum.fin ((digitsVal "30".data : Rat))) :=
  ⟨⟨by decide, by decide⟩,
    (c4_parseWeight_amended '#').1 "Name".data "30".data (by decide) (by decide)
      (by decide) (by decide)⟩

theorem replaceAt_map_fields (ln vn : String) :
    ∀ l : List Picked,
      (replaceAt ln vn l).map fieldsExceptNameId = l.map fieldsExceptNameId
  | [] => rfl
  | p :: rest => by
    unfold replaceAt
    by_cases h : p.layer = ln
    · rw [if_pos h]
      rfl
    · rw [if_neg h]
      simp only [List.map_cons, replaceAt_map_fields ln vn rest]

theorem replaceAt_map_layer (ln vn : String) (l : List Picked) :
    (replaceAt ln vn l).map (fun p => p.layer) = l.map (fun p => p.layer) := by
  have h := replaceAt_map_fields ln vn l
  have h1 : ∀ m : List Picked,
      m.map (fun p => p.layer) = (m.map fieldsExceptNameId).map (fun q => q.1) := by
    intro m
    rw [List.map_map]
    rfl
  rw [h1, h1, h]

unseal Rat.mul Rat.add Rat.sub Rat.inv in
/-- C5 counterexample: requirement `"A:a1" -> ["B:zzz"]` whose target value
`zzz` does not exist in layer `B`.  The claim says enforcement adds no trait
and changes nothing, but the code renames the already picked `B` element in
place to the nonexistent value (keeping its asset path). -/
theorem c5_missing_value_rewrites_selection :
    ((pickTraitsForLayers cfgC5 layersC5 (fun _ => 0) 0).1).map (fun p => (p.layer, p.name, p.path))
      = [("A", "a1", "A/a1.png"), ("B", "zzz", "B/b1.png")] ∧
    (∀ l ∈ layersC5, ∀ e ∈ l.elements, e.name ≠ "zzz") ∧
    (pickTraitsForLayers cfgC5 layersC5 (fun _ => 0) 0).1
      ≠ initialPicksGo (fun _ => 0) layersC5 0 0 := by
  refine ⟨by decide, by decide, by decide⟩

/-- C5 amended: when the requested target layer does not exist in the catalog
(hence not in the selection), requirement enforcement is a complete no-op;
but when the target layer exists, the first pick of that layer is renamed in
place to the requested value — even if that value exists nowhere in the
catalog — keeping every other field (asset path, render order, weight,
layer).  Enforcement is never fatal in either case. -/
theorem c5_requirement_target_amended (layers : List Layer)
    (st : List Picked × Nat) (layerName valueName : String)
    (hcov : st.1.map (fun p => p.layer) = layers.map (fun l => l.id)) :
    (layerName ∉ layers.map (fun l => l.id) →
      applyOverride layers st (layerName, valueName) = st) ∧
    (layerName ∈ st.1.map (fun p => p.layer) →
      applyOverride layers st (layerName, valueName)
          = (replaceAt layerName valueName st.1, st.2) ∧
        (replaceAt layerName valueName st.1).map fieldsExceptNameId
          = st.1.map fieldsExceptNameId) := by
  constructor
  · intro hmiss
    have hnotmem : layerName ∉ st.1.map (fun p => p.layer) := by
      rw [hcov]; exact hmiss
    unfold applyOverride
    dsimp only
    have hany : (st.1.any fun p => decide (p.layer = layerName)) = false := by
      rw [List.any_eq_false]
      intro p hp
      simp only [decide_eq_true_eq]
      exact fun hpl => hnotmem (hpl ▸ List.mem_map_of_mem (fun p => p.layer) hp)
    have hfind : List.find? (fun l => decide (l.id = layerName)) layers = none := by
      rw [List.find?_eq_none]
      intro l hl
      simp only [decide_eq_true_eq]
      exact fun hid => hmiss (hid ▸ List.mem_map_of_mem (fun l => l.id) hl)
    rw [hany]
    simp only [Bool.false_eq_true, if_false]
    rw [hfind]
  · intro hmem
    unfold applyOverride
    dsimp only
    have hany : (st.1.any fun p => decide (p.layer = layerName)) = true := by
      rw [List.any_eq_true]
      rcases List.mem_map.mp hmem with ⟨p, hp, hpl⟩
      exact ⟨p, hp, by simp [hpl]⟩
    rw [hany, if_pos rfl]
    exact ⟨rfl, replaceAt_map_fields layerName valueName st.1⟩

unseal Rat.mul Rat.add Rat.sub Rat.inv in
/-- Witness for the amended silent-enforcement theorem: a two-layer catalog,
a missing target layer `C` (complete no-op) and an existing layer `B`. -/
theorem c5_requirement_target_amended_witness :
    (("C" : String) ∉ (layersC5.map (fun l => l.id)) ∧
      applyOverride layersC5 (initialPicksGo (fun _ => 0) layersC5 0 0, 2) ("C", "zzz")
        = (initialPicksGo (fun _ => 0) layersC5 0 0, 2)) ∧
    (("B" : String) ∈ ((initialPicksGo (fun _ => 0) layersC5 0 0).map (fun p => p.layer)) ∧
      applyOverride layersC5 (initialPicksGo (fun _ => 0) layersC5 0 0, 2) ("B", "zzz")
        = (replaceAt "B" "zzz" (initialPicksGo (fun _ => 0) layersC5 0 0), 2)) := by
  have hcov : (initialPicksGo (fun _ => 0) layersC5 0 0).map (fun p => p.layer)
      = layersC5.map (fun l => l.id) := by decide
  refine ⟨⟨by decide, ?_⟩, ⟨by decide, ?_⟩⟩
  · exact (c5_requirement_target_amended layersC5 _ "C" "zzz" hcov).1 (by decide)
  · exact ((c5_requirement_target_amended layersC5 _ "B" "zzz" hcov).2 (by decide)).1

theorem weightedPickGo_mem : ∀ {l : List Element} {r : Rat} {e : Element},
    weightedPickGo l r = some e → e ∈ l := by
  intro l
  induction l with
  | nil => intro r e h; exact absurd h (by simp [weightedPickGo])
  | cons a t ih =>
    intro r e h
    unfold weightedPickGo at h
    by_cases hle : r - a.weight ≤ 0
    · rw [if_pos hle] at h
      exact (Option.some_inj.mp h) ▸ List.mem_cons_self a t
    · rw [if_neg hle] at h
      exact List.mem_cons_of_mem a (ih h)

theorem weightedPick_mem {l : List Element} (h : l ≠ []) (rnd : Rat) :
    weightedPick l rnd ∈ l := by
  unfold weightedPick
  dsimp only
  match hgo : weightedPickGo l (rnd * l.foldl (fun sum e => sum + e.weight) 0) with
  | some e => exact weightedPickGo_mem hgo
  | none =>
    have hlen : l.length - 1 < l.length :=
      Nat.sub_lt (List.length_pos.mpr h) Nat.one_pos
    rw [List.getD_eq_getElem l default hlen]
    exact List.getElem_mem hlen

theorem mkLayers_wellFormed (d : Char) (dirs : List (String × List String)) :
    wellFormed (mkLayers d dirs) := by
  induction dirs with
  | nil => intro l hl; exact absurd hl (by simp [mkLayers])
  | cons p rest ih =>
    rcases p with ⟨dir, files⟩
    intro l hl
    unfold mkLayers at hl
    rw [List.foldr_cons] at hl
    dsimp only at hl
    by_cases hf : files.isEmpty
    · rw [if_pos hf] at hl
      exact ih l hl
    · rw [if_neg hf] at hl
      rcases List.mem_cons.mp hl with rfl | hl
      · constructor
        · simp only [ne_eq, List.map_eq_nil_iff]
          exact fun h2 => hf (by rw [h2]; rfl)
        · intro e he
          rcases List.mem_map.mp he with ⟨f, _, rfl⟩
          rfl
      · exact ih l hl

theorem initialPicksGo_map_layer (rand : Nat → Rat) :
    ∀ (layers : List Layer), wellFormed layers → ∀ (k order : Nat),
      (initialPicksGo rand layers k order).map (fun p => p.layer)
        = layers.map (fun l => l.id) := by
  intro layers
  induction layers with
  | nil => intro _ k order; rfl
  | cons l rest ih =>
    intro hwf k order
    have hl := hwf l (List.mem_cons_self l rest)
    have hrest : wellFormed rest := fun x hx => hwf x (List.mem_cons_of_mem l hx)
    unfold initialPicksGo
    simp only [List.map_cons]
    rw [hl.2 _ (weightedPick_mem hl.1 (rand k)), ih hrest (k + 1) (order + 1)]

theorem initialPicksGo_map_order (rand : Nat → Rat) :
    ∀ (layers : List Layer) (k order : Nat),
      (initialPicksGo rand layers k order).map (fun p => p._order)
        = List.range' order layers.length := by
  intro layers
  induction layers with
  | nil => intro k order; rfl
  | cons l rest ih =>
    intro k order
    unfold initialPicksGo
    simp only [List.map_cons, List.length_cons, List.range'_succ]
    rw [ih (k + 1) (order + 1)]

theorem foldl_fixed {α β : Type} {f : α → β → α} {a : α}
    (h : ∀ b, f a b = a) : ∀ l : List β, l.foldl f a = a
  | [] => rfl
  | b :: t => by rw [List.foldl_cons, h b]; exact foldl_fixed h t

theorem mandatoryStep_eq_self (cfg : Config) (layers : List Layer)
    (st : List Picked × Nat)
    (hcov : st.1.map (fun p => p.layer) = layers.map (fun l => l.id)) :
    mandatoryStep cfg layers st = st := by
  unfold mandatoryStep
  apply foldl_fixed
  intro m
  by_cases hfind : (st.1.find? (fun p => decide (p.layer = m))).isSome
  · rw [if_pos hfind]
  · rw [if_neg hfind]
    have hnm : m ∉ st.1.map (fun p => p.layer) := by
      intro hm
      rcases List.mem_map.mp hm with ⟨p, hp, hpl⟩
      exact hfind (List.find?_isSome.mpr ⟨p, hp, decide_eq_true hpl⟩)
    have hfl : List.find? (fun l => decide (l.id = m)) layers = none := by
      rw [List.find?_eq_none]
      intro l hl
      simp only [decide_eq_true_eq]
      exact fun hid => hnm (hcov ▸ (hid ▸ List.mem_map_of_mem (fun l => l.id) hl))
    rw [hfl]

theorem applyOverride_hit {layers : List Layer} {st : List Picked × Nat}
    {e : String × String} (hmem : e.1 ∈ st.1.map (fun p => p.layer)) :
    applyOverride layers st e = (replaceAt e.1 e.2 st.1, st.2) := by
  unfold applyOverride
  dsimp only
  have hany : (st.1.any fun p => decide (p.layer = e.1)) = true := by
    rw [List.any_eq_true]
    rcases List.mem_map.mp hmem with ⟨p, hp, hpl⟩
    exact ⟨p, hp, by simp [hpl]⟩
  rw [hany, if_pos rfl]

theorem applyOverride_miss {layers : List Layer} {st : List Picked × Nat}
    {e : String × String} (hnm : e.1 ∉ st.1.map (fun p => p.layer))
    (hni : e.1 ∉ layers.map (fun l => l.id)) :
    applyOverride layers st e = st := by
  unfold applyOverride
  dsimp only
  have hany : (st.1.any fun p => decide (p.layer = e.1)) = false := by
    rw [List.any_eq_false]
    intro p hp
    simp only [decide_eq_true_eq]
    exact fun hpl => hnm (hpl ▸ List.mem_map_of_mem (fun p => p.layer) hp)
  rw [hany]
  simp only [Bool.false_eq_true, if_false]
  rw [List.find?_eq_none.mpr]
  intro l hl
  simp only [decide_eq_true_eq]
  exact fun hid => hni (hid ▸ List.mem_map_of_mem (fun l => l.id) hl)

theorem applyFold_map_fields (layers : List Layer) :
    ∀ (entries : List (String × String)) (st : List Picked × Nat),
      st.1.map (fun p => p.layer) = layers.map (fun l => l.id) →
      ((entries.foldl (applyOverride layers) st).1).map fieldsExceptNameId
          = st.1.map fieldsExceptNameId ∧
        ((entries.foldl (applyOverride layers) st).1).map (fun p => p.layer)
          = layers.map (fun l => l.id) := by
  intro entries
  induction entries with
  | nil => intro st hcov; exact ⟨rfl, hcov⟩
  | cons e rest ih =>
    intro st hcov
    rw [List.foldl_cons]
    by_cases hmem : e.1 ∈ st.1.map (fun p => p.layer)
    · rw [applyOverride_hit hmem]
      have hcov' : (replaceAt e.1 e.2 st.1).map (fun p => p.layer)
          = layers.map (fun l => l.id) := by
        rw [replaceAt_map_layer]; exact hcov
      rcases ih (replaceAt e.1 e.2 st.1, st.2) hcov' with ⟨h1, h2⟩
      exact ⟨by rw [h1, replaceAt_map_fields], h2⟩
    · rw [applyOverride_miss hmem (hcov ▸ hmem)]
      exact ih st hcov

theorem fields_proj_order {m m' : List Picked}
    (h : m.map fieldsExceptNameId = m'.map fieldsExceptNameId) :
    m.map (fun p => p._order) = m'.map (fun p => p._order) := by
  have e : ∀ x : List Picked,
      x.map (fun p => p._order) = (x.map fieldsExceptNameId).map (fun q => q.2.2.2) := by
    intro x
    rw [List.map_map]
    rfl
  rw [e, e, h]

theorem fields_proj_path {m m' : List Picked}
    (h : m.map fieldsExceptNameId = m'.map fieldsExceptNameId) :
    m.map (fun p => p.path) = m'.map (fun p => p.path) := by
  have e : ∀ x : List Picked,
      x.map (fun p => p.path) = (x.map fieldsExceptNameId).map (fun q => q.2.2.1) := by
    intro x
    rw [List.map_map]
    rfl
  rw [e, e, h]

theorem sorted_by_order_of_map_range' {m : List Picked} {o : Nat}
    (h : m.map (fun p => p._order) = List.range' o m.length) :
    List.Sorted (fun a b : Picked => a._order ≤ b._order) m := by
  have hp : (m.map (fun p => p._order)).Pairwise (· < ·) := by
    rw [h]
    exact List.pairwise_lt_range' o m.length
  rw [List.pairwise_map] at hp
  exact hp.imp (fun hab => Nat.le_of_lt hab)

/-- C9: every selection returned by `pickTraitsForLayers` on a catalog built
by the layer loader contains exactly one element per catalog layer, in
catalog order: the initial draw already covers every layer, the mandatory
branch finds each mandatory layer either present or absent from the catalog
and adds nothing, and the requirement branch appends only for layers absent
from the catalog, of which there are none. -/
theorem c9_one_pick_per_layer (d : Char) (cfg : Config)
    (dirs : List (String × List String)) (rand : Nat → Rat) (k : Nat) :
    ((pickTraitsForLayers cfg (mkLayers d dirs) rand k).1).map (fun p => p.layer)
        = (mkLayers d dirs).map (fun l => l.id) ∧
      ((pickTraitsForLayers cfg (mkLayers d dirs) rand k).1).length
        = (mkLayers d dirs).length := by
  have hwf := mkLayers_wellFormed d dirs
  have h0 := initialPicksGo_map_layer rand _ hwf k 0
  unfold pickTraitsForLayers
  dsimp only
  rw [mandatoryStep_eq_self cfg _ _ h0]
  have h := (applyFold_map_fields (mkLayers d dirs)
    (enforceRequirements cfg (initialPicksGo rand (mkLayers d dirs) k 0))
    (initialPicksGo rand (mkLayers d dirs) k 0, (mkLayers d dirs).length) h0).2
  refine ⟨h, ?_⟩
  have := congrArg List.length h
  simpa using this

/-- C10: when a requirement override replaces an existing layer pick in
place, only `name` and `id` change: the whole pipeline preserves every other
field (`layer`, `weight`, `path`, `_order`) of the initially drawn picks, the
compositor therefore stacks exactly the originally drawn asset paths in draw
order, while the metadata attribute list reports the (possibly forced) value
names of the final selection. -/
theorem c10_replace_keeps_asset_and_order (d : Char) (cfg : Config)
    (dirs : List (String × List String)) (rand : Nat → Rat) (k tokenId : Nat)
    (uri : String) :
    ((pickTraitsForLayers cfg (mkLayers d dirs) rand k).1).map fieldsExceptNameId
        = (initialPicksGo rand (mkLayers d dirs) k 0).map fieldsExceptNameId ∧
      composeOrder ((pickTraitsForLayers cfg (mkLayers d dirs) rand k).1)
        = (initialPicksGo rand (mkLayers d dirs) k 0).map (fun p => p.path) ∧
      (metadataForToken cfg tokenId ((pickTraitsForLayers cfg (mkLayers d dirs) rand k).1)
          uri).attributes
        = ((pickTraitsForLayers cfg (mkLayers d dirs) rand k).1).map
            (fun s => (s.layer, s.name)) := by
  have hwf := mkLayers_wellFormed d dirs
  have h0 := initialPicksGo_map_layer rand _ hwf k 0
  have ha : ((pickTraitsForLayers cfg (mkLayers d dirs) rand k).1).map fieldsExceptNameId
      = (initialPicksGo rand (mkLayers d dirs) k 0).map fieldsExceptNameId := by
    unfold pickTraitsForLayers
    dsimp only
    rw [mandatoryStep_eq_self cfg _ _ h0]
    exact (applyFold_map_fields (mkLayers d dirs)
      (enforceRequirements cfg (initialPicksGo rand (mkLayers d dirs) k 0))
      (initialPicksGo rand (mkLayers d dirs) k 0, (mkLayers d dirs).length) h0).1
  have hlen : ((pickTraitsForLayers cfg (mkLayers d dirs) rand k).1).length
      = (mkLayers d dirs).length := by
    have := congrArg List.length ha
    simp only [List.length_map] at this
    rw [this]
    have h2 := congrArg List.length (initialPicksGo_map_order rand (mkLayers d dirs) k 0)
    simpa using h2
  have hord : ((pickTraitsForLayers cfg (mkLayers d dirs) rand k).1).map (fun p => p._order)
      = List.range' 0 ((pickTraitsForLayers cfg (mkLayers d dirs) rand k).1).length := by
    rw [fields_proj_order ha, initialPicksGo_map_order rand (mkLayers d dirs) k 0, hlen]
  have hsorted := sorted_by_order_of_map_range' hord
  refine ⟨ha, ?_, ?_⟩
  · unfold composeOrder
    rw [List.Sorted.insertionSort_eq hsorted]
    exact fields_proj_path ha
  · unfold metadataForToken
    dsimp only
    rw [List.Sorted.insertionSort_eq hsorted]

theorem char_toNat_inj {a b : Char} (h : a.toNat = b.toNat) : a = b :=
  Char.ext (UInt32.ext h)

theorem charListLe_total : ∀ x y : List Char,
    charListLe x y = true ∨ charListLe y x = true
  | [], _ => Or.inl rfl
  | _ :: _, [] => Or.inr rfl
  | a :: as, b :: bs => by
    unfold charListLe
    by_cases hab : a = b
    · subst hab
      rw [if_pos rfl, if_pos rfl]
      exact charListLe_total as bs
    · rw [if_neg hab, if_neg (fun h => hab h.symm)]
      rcases Nat.lt_trichotomy a.toNat b.toNat with h | h | h
      · exact Or.inl (decide_eq_true h)
      · exact absurd (char_toNat_inj h) hab
      · exact Or.inr (decide_eq_true h)

theorem charListLe_trans : ∀ x y z : List Char,
    charListLe x y = true → charListLe y z = true → charListLe x z = true
  | [], _, _ => fun _ _ => rfl
  | a :: as, [], _ => fun h _ => by exact absurd h (by simp [charListLe])
  | _ :: _, _ :: _, [] => fun _ h => by exact absurd h (by simp [charListLe])
  | a :: as, b :: bs, c :: cs => by
    intro h1 h2
    unfold charListLe at h1 h2 ⊢
    by_cases hab : a = b
    · subst hab
      rw [if_pos rfl] at h1
      by_cases hac : a = c
      · subst hac
        rw [if_pos rfl] at h2 ⊢
        exact charListLe_trans as bs cs h1 h2
      · rw [if_neg hac] at h2 ⊢
        exact h2
    · rw [if_neg hab] at h1
      have hlt1 : a.toNat < b.toNat := of_decide_eq_true h1
      by_cases hbc : b = c
      · subst hbc
        rw [if_neg hab]
        exact decide_eq_true hlt1
      · rw [if_neg hbc] at h2
        have hlt2 : b.toNat < c.toNat := of_decide_eq_true h2
        have hlt : a.toNat < c.toNat := Nat.lt_trans hlt1 hlt2
        rw [if_neg (fun hac => absurd (hac ▸ hlt) (Nat.lt_irrefl _))]
        exact decide_eq_true hlt

theorem charListLe_antisymm : ∀ x y : List Char,
    charListLe x y = true → charListLe y x = true → x = y
  | [], [] => fun _ _ => rfl
  | [], _ :: _ => fun _ h => by exact absurd h (by simp [charListLe])
  | _ :: _, [] => fun h _ => by exact absurd h (by simp [charListLe])
  | a :: as, b :: bs => by
    intro h1 h2
    unfold charListLe at h1 h2
    by_cases hab : a = b
    · subst hab
      rw [if_pos rfl] at h1 h2
      rw [charListLe_antisymm as bs h1 h2]
    · rw [if_neg hab] at h1
      rw [if_neg (fun h => hab h.symm)] at h2
      exact absurd (Nat.lt_trans (of_decide_eq_true h1) (of_decide_eq_true h2))
        (Nat.lt_irrefl _)

/-- C7 counterexample: two selections holding the same set of (layer, value)
pairs — two entries of the *same* layer in swapped insertion order — get
different fingerprints, because the stable sort orders equal layers by
insertion order. -/
theorem c7_duplicate_layer_counterexample :
    dnaFromSelection
        [{ id := "A:x", layer := "A", name := "x", weight := 1, path := "", _order := 0 },
         { id := "A:y", layer := "A", name := "y", weight := 1, path := "", _order := 1 }]
      ≠ dnaFromSelection
        [{ id := "A:y", layer := "A", name := "y", weight := 1, path := "", _order := 1 },
         { id := "A:x", layer := "A", name := "x", weight := 1, path := "", _order := 0 }] ∧
    (∀ p : Picked,
      p ∈ [{ id := "A:x", layer := "A", name := "x", weight := 1, path := "", _order := 0 },
           { id := "A:y", layer := "A", name := "y", weight := 1, path := "", _order := 1 }] ↔
      p ∈ [{ id := "A:y", layer := "A", name := "y", weight := 1, path := "", _order := 1 },
           { id := "A:x", layer := "A", name := "x", weight := 1, path := "", _order := 0 }]) := by
  constructor
  · decide
  · intro p
    constructor <;> intro hp <;> rcases List.mem_cons.mp hp with rfl | hp <;>
      simp_all [List.mem_cons]

/-- C7 amended: the fingerprint is insertion-order-independent for selections
whose layer names are pairwise distinct (which every selection produced by
the engine satisfies): two such selections containing the same (layer, value)
entries in any order yield the same fingerprint string.  (With duplicated
layer names the stable sort preserves insertion order among them and the
claim fails, see the counterexample.) -/
theorem c7_fingerprint_order_independent (s1 s2 : List Picked)
    (h1 : (s1.map (fun p => p.layer)).Nodup)
    (h2 : (s2.map (fun p => p.layer)).Nodup)
    (hmem : ∀ p : Picked, p ∈ s1 ↔ p ∈ s2) :
    dnaFromSelection s1 = dnaFromSelection s2 := by
  have hs1 : s1.Nodup := h1.of_map
  have hs2 : s2.Nodup := h2.of_map
  have hperm : s1.Perm s2 := (List.perm_ext_iff_of_nodup hs1 hs2).mpr hmem
  haveI : IsTotal Picked (fun a b : Picked => charListLe a.layer.data b.layer.data = true) :=
    ⟨fun a b => charListLe_total a.layer.data b.layer.data⟩
  haveI : IsTrans Picked (fun a b : Picked => charListLe a.layer.data b.layer.data = true) :=
    ⟨fun a b c => charListLe_trans a.layer.data b.layer.data c.layer.data⟩
  haveI : IsAntisymm Picked
      (fun a b : Picked =>
        (charListLe a.layer.data b.layer.data = true) ∧ a.layer ≠ b.layer) :=
    ⟨fun a b hab hba =>
      absurd (congrArg String.mk (charListLe_antisymm _ _ hab.1 hba.1)) hab.2⟩
  have hpermsorted :
      (s1.insertionSort (fun a b => charListLe a.layer.data b.layer.data = true)).Perm
        (s2.insertionSort (fun a b => charListLe a.layer.data b.layer.data = true)) :=
    ((List.perm_insertionSort _ s1).trans hperm).trans
      (List.perm_insertionSort _ s2).symm
  have hstrict : ∀ (s : List Picked), (s.map (fun p => p.layer)).Nodup →
      List.Sorted
        (fun a b : Picked =>
          (charListLe a.layer.data b.layer.data = true) ∧ a.layer ≠ b.layer)
        (s.insertionSort (fun a b => charListLe a.layer.data b.layer.data = true)) := by
    intro s hnd
    have hsorted := List.sorted_insertionSort
      (fun a b : Picked => charListLe a.layer.data b.layer.data = true) s
    have hnd' : ((s.insertionSort
        (fun a b => charListLe a.layer.data b.layer.data = true)).map
          (fun p => p.layer)).Nodup :=
      (((List.perm_insertionSort _ s).map (fun p => p.layer)).nodup_iff).mpr hnd
    have hne := List.pairwise_map.mp hnd'
    exact hsorted.and hne
  have heq : s1.insertionSort (fun a b => charListLe a.layer.data b.layer.data = true)
      = s2.insertionSort (fun a b => charListLe a.layer.data b.layer.data = true) :=
    List.eq_of_perm_of_sorted hpermsorted (hstrict s1 h1) (hstrict s2 h2)
  unfold dnaFromSelection
  rw [heq]

/-- Witness for the amended fingerprint theorem: the same two distinct-layer
entries in both insertion orders. -/
theorem c7_fingerprint_order_independent_witness :
    (([{ id := "A:x", layer := "A", name := "x", weight := 1, path := "", _order := 0 },
       { id := "B:y", layer := "B", name := "y", weight := 1, path := "", _order := 1 }]
        : List Picked).map (fun p => p.layer)).Nodup ∧
    dnaFromSelection
        [{ id := "A:x", layer := "A", name := "x", weight := 1, path := "", _order := 0 },
         { id := "B:y", layer := "B", name := "y", weight := 1, path := "", _order := 1 }]
      = dnaFromSelection
        [{ id := "B:y", layer := "B", name := "y", weight := 1, path := "", _order := 1 },
         { id := "A:x", layer := "A", name := "x", weight := 1, path := "", _order := 0 }] := by
  refine ⟨by decide, ?_⟩
  apply c7_fingerprint_order_independent
  · decide
  · decide
  · intro p
    constructor <;> intro hp <;> rcases List.mem_cons.mp hp with rfl | hp <;>
      simp_all [List.mem_cons]

theorem lookup_overwrite_self {v : String} :
    ∀ (m : List (String × String)) (k : String),
      m.any (fun p => p.1 = k) = true →
      List.lookup k (m.map (fun p => if p.1 = k then (k, v) else p)) = some v := by
  intro m
  induction m with
  | nil => intro k h; exact absurd h (by simp)
  | cons p rest ih =>
    intro k h
    rcases p with ⟨k0, v0⟩
    by_cases hpk : k0 = k
    · simp only [List.map_cons, if_pos (show (k0, v0).1 = k from hpk)]
      simp
    · simp only [List.map_cons, if_neg (show ¬(k0, v0).1 = k from hpk)]
      have hrest : rest.any (fun p => p.1 = k) = true := by
        rcases List.any_eq_true.mp h with ⟨q, hq, hqk⟩
        rcases List.mem_cons.mp hq with rfl | hq
        · exact absurd (of_decide_eq_true hqk) hpk
        · exact List.any_eq_true.mpr ⟨q, hq, hqk⟩
      rw [List.lookup_cons]
      simp only [show (k == k0) = false from by
        simpa using fun h' => hpk h'.symm]
      exact ih k hrest

theorem lookup_not_found :
    ∀ (m : List (String × String)) (k : String),
      m.any (fun p => p.1 = k) = false →
      List.lookup k m = none := by
  intro m
  induction m with
  | nil => intro k _; rfl
  | cons p rest ih =>
    intro k h
    rcases p with ⟨k0, v0⟩
    rw [List.any_cons, Bool.or_eq_false_iff] at h
    rw [List.lookup_cons]
    simp only [show (k == k0) = false from by
      have h1 : decide ((k0, v0).1 = k) = false := h.1
      simpa using fun h' : k = k0 => by
        rw [show (k0, v0).1 = k0 from rfl, h'.symm] at h1
        simp at h1]
    exact ih k h.2

theorem lookup_mapSet_self (m : List (String × String)) (k v : String) :
    List.lookup k (mapSet m k v) = some v := by
  unfold mapSet
  by_cases h : m.any (fun p => p.1 = k) = true
  · rw [if_pos h]
    exact lookup_overwrite_self m k h
  · have hf : m.any (fun p => p.1 = k) = false := Bool.eq_false_iff.mpr h
    rw [if_neg h, List.lookup_append, lookup_not_found m k hf]
    simp

theorem lookup_mapSet_ne (m : List (String × String)) (k v k' : String)
    (hne : k' ≠ k) :
    List.lookup k' (mapSet m k v) = List.lookup k' m := by
  have hbeq : (k' == k) = false := by simpa using hne
  unfold mapSet
  by_cases h : m.any (fun p => p.1 = k) = true
  · rw [if_pos h]
    clear h
    induction m with
    | nil => rfl
    | cons p rest ih =>
      rcases p with ⟨k0, v0⟩
      by_cases hpk : k0 = k
      · simp only [List.map_cons, if_pos (show (k0, v0).1 = k from hpk)]
        rw [List.lookup_cons, List.lookup_cons]
        simp only [hbeq, show (k' == k0) = false from by rw [hpk]; exact hbeq]
        exact ih
      · simp only [List.map_cons, if_neg (show ¬(k0, v0).1 = k from hpk)]
        rw [List.lookup_cons, List.lookup_cons]
        cases hb : (k' == k0) with
        | true => rfl
        | false => exact ih
  · rw [if_neg h, List.lookup_append]
    have : List.lookup k' [(k, v)] = none := by
      rw [show [(k, v)] = (k, v) :: ([] : List (String × String)) from rfl,
        List.lookup_cons]
      simp [hbeq]
    rw [this]
    cases List.lookup k' m <;> rfl

theorem mapSet_keys (m : List (String × String)) (k v : String) :
    (mapSet m k v).map Prod.fst
      = if m.any (fun p => p.1 = k) = true then m.map Prod.fst
        else m.map Prod.fst ++ [k] := by
  unfold mapSet
  by_cases h : m.any (fun p => p.1 = k) = true
  · rw [if_pos h, if_pos h, List.map_map]
    apply List.map_congr_left
    intro p _
    by_cases hpk : p.1 = k
    · simp [hpk]
    · simp [hpk]
  · rw [if_neg h, if_neg h, List.map_append]
    rfl

theorem mapSet_keys_nodup {m : List (String × String)} {k v : String}
    (h : (m.map Prod.fst).Nodup) : ((mapSet m k v).map Prod.fst).Nodup := by
  rw [mapSet_keys]
  by_cases hany : m.any (fun p => p.1 = k) = true
  · rw [if_pos hany]; exact h
  · rw [if_neg hany]
    have hk : k ∉ m.map Prod.fst := by
      intro hkm
      rcases List.mem_map.mp hkm with ⟨p, hp, hpk⟩
      apply hany
      rw [List.any_eq_true]
      exact ⟨p, hp, decide_eq_true hpk⟩
    exact List.Nodup.append h (List.nodup_singleton k)
      (List.disjoint_singleton.mpr hk)

theorem jsSplitOnChar_no_sep {c : Char} :
    ∀ {l : List Char}, c ∉ l → jsSplitOnChar c l = [l] := by
  intro l
  induction l with
  | nil => intro _; rfl
  | cons a rest ih =>
    intro h
    unfold jsSplitOnChar
    rw [ih (fun hm => h (List.mem_cons_of_mem a hm))]
    dsimp only
    rw [if_neg (fun (hac : a = c) => h (List.mem_cons.mpr (Or.inl hac.symm)))]

theorem jsSplitOnChar_append {c : Char} {yy : List Char} (hy : c ∉ yy) :
    ∀ {b : List Char}, c ∉ b →
      jsSplitOnChar c (b ++ c :: yy) = [b, yy] := by
  intro b
  induction b with
  | nil =>
    intro _
    rw [List.nil_append]
    unfold jsSplitOnChar
    rw [jsSplitOnChar_no_sep hy]
    dsimp only
    rw [if_pos rfl]
  | cons a bs ih =>
    intro hb
    rw [List.cons_append]
    unfold jsSplitOnChar
    rw [ih (fun hm => hb (List.mem_cons_of_mem a hm))]
    dsimp only
    rw [if_neg (fun (hac : a = c) => hb (List.mem_cons.mpr (Or.inl hac.symm)))]

theorem traitKey_data {B y : String} :
    (traitKey B y).data = B.data ++ ':' :: y.data := by
  unfold traitKey
  rw [String.data_append, String.data_append, List.append_assoc]
  rfl

theorem splitParts_traitKey {B y : String} (hB : ':' ∉ B.data)
    (hy : ':' ∉ y.data) :
    (jsSplitOnChar ':' (traitKey B y).data).map (fun l => (⟨l⟩ : String))
      = [B, y] := by
  rw [traitKey_data, jsSplitOnChar_append hy hB]
  rfl

theorem innerFold_lookup_ne {B : String} :
    ∀ (reqs : List String) (m : List (String × String)),
      (∀ t ∈ reqs,
        (((jsSplitOnChar ':' t.data).map (fun l => (⟨l⟩ : String))).headD "") ≠ B) →
      List.lookup B
          (reqs.foldl
            (fun m target =>
              let parts := (jsSplitOnChar ':' target.data).map (fun l => (⟨l⟩ : String))
              mapSet m (parts.headD "") ((parts.get? 1).getD "undefined"))
            m)
        = List.lookup B m := by
  intro reqs
  induction reqs with
  | nil => intro m _; rfl
  | cons t rest ih =>
    intro m h
    rw [List.foldl_cons]
    rw [ih _ (fun t' ht' => h t' (List.mem_cons_of_mem t ht'))]
    exact lookup_mapSet_ne _ _ _ _ (fun he => (h t (List.mem_cons_self t rest)) he.symm)

theorem innerFold_keys_nodup :
    ∀ (reqs : List String) (m : List (String × String)),
      (m.map Prod.fst).Nodup →
      ((reqs.foldl
          (fun m target =>
            let parts := (jsSplitOnChar ':' target.data).map (fun l => (⟨l⟩ : String))
            mapSet m (parts.headD "") ((parts.get? 1).getD "undefined"))
          m).map Prod.fst).Nodup := by
  intro reqs
  induction reqs with
  | nil => intro m h; exact h
  | cons t rest ih =>
    intro m h
    rw [List.foldl_cons]
    exact ih _ (mapSet_keys_nodup h)

theorem innerFold_traitKey {B y : String} (hB : ':' ∉ B.data) (hy : ':' ∉ y.data)
    (m : List (String × String)) :
    ([traitKey B y].foldl
        (fun m target =>
          let parts := (jsSplitOnChar ':' target.data).map (fun l => (⟨l⟩ : String))
          mapSet m (parts.headD "") ((parts.get? 1).getD "undefined"))
        m)
      = mapSet m B y := by
  rw [List.foldl_cons, List.foldl_nil]
  dsimp only
  rw [splitParts_traitKey hB hy]
  rfl

theorem outerFold_keep (cfg : Config) (A x B y : String)
    (hB : ':' ∉ B.data) (hy : ':' ∉ y.data)
    (hreq : cfg.requires.lookup (traitKey A x) = some [traitKey B y]) :
    ∀ (keys : List String) (m : List (String × String)),
      List.lookup B m = some y →
      (∀ kk ∈ keys, kk = traitKey A x ∨
        (∀ t ∈ (cfg.requires.lookup kk).getD [],
          (((jsSplitOnChar ':' t.data).map (fun l => (⟨l⟩ : String))).headD "") ≠ B)) →
      List.lookup B
          (keys.foldl
            (fun mustAdd k =>
              match cfg.requires.lookup k with
              | some reqs =>
                reqs.foldl
                  (fun m target =>
                    let parts := (jsSplitOnChar ':' target.data).map (fun l => (⟨l⟩ : String))
                    mapSet m (parts.headD "") ((parts.get? 1).getD "undefined"))
                  mustAdd
              | none => mustAdd)
            m)
        = some y := by
  intro keys
  induction keys with
  | nil => intro m hm _; exact hm
  | cons kk rest ih =>
    intro m hm h
    rw [List.foldl_cons]
    apply ih
    · rcases h kk (List.mem_cons_self kk rest) with rfl | hgood
      · simp only [hreq]
        show List.lookup B
            ([traitKey B y].foldl
              (fun m target =>
                let parts := (jsSplitOnChar ':' target.data).map (fun l => (⟨l⟩ : String))
                mapSet m (parts.headD "") ((parts.get? 1).getD "undefined"))
              m) = some y
        rw [innerFold_traitKey hB hy]
        exact lookup_mapSet_self m B y
      · cases hlk : cfg.requires.lookup kk with
        | none => exact hm
        | some reqs =>
          rw [innerFold_lookup_ne reqs m (by
            intro t ht
            have := hgood t
            rw [hlk] at this
            exact this ht)]
          exact hm
    · intro kk' hk'
      exact h kk' (List.mem_cons_of_mem kk hk')

theorem outerFold_reach (cfg : Config) (A x B y : String)
    (hB : ':' ∉ B.data) (hy : ':' ∉ y.data)
    (hreq : cfg.requires.lookup (traitKey A x) = some [traitKey B y]) :
    ∀ (keys : List String) (m : List (String × String)),
      traitKey A x ∈ keys →
      (∀ kk ∈ keys, kk ≠ traitKey A x →
        (∀ t ∈ (cfg.requires.lookup kk).getD [],
          (((jsSplitOnChar ':' t.data).map (fun l => (⟨l⟩ : String))).headD "") ≠ B)) →
      List.lookup B
          (keys.foldl
            (fun mustAdd k =>
              match cfg.requires.lookup k with
              | some reqs =>
                reqs.foldl
                  (fun m target =>
                    let parts := (jsSplitOnChar ':' target.data).map (fun l => (⟨l⟩ : String))
                    mapSet m (parts.headD "") ((parts.get? 1).getD "undefined"))
                  mustAdd
              | none => mustAdd)
            m)
        = some y := by
  intro keys
  induction keys with
  | nil => intro m hmem _; exact absurd hmem (List.not_mem_nil _)
  | cons kk rest ih =>
    intro m hmem h
    rw [List.foldl_cons]
    by_cases hkk : kk = traitKey A x
    · subst hkk
      apply outerFold_keep cfg A x B y hB hy hreq rest
      · simp only [hreq]
        show List.lookup B
            ([traitKey B y].foldl
              (fun m target =>
                let parts := (jsSplitOnChar ':' target.data).map (fun l => (⟨l⟩ : String))
                mapSet m (parts.headD "") ((parts.get? 1).getD "undefined"))
              m) = some y
        rw [innerFold_traitKey hB hy]
        exact lookup_mapSet_self m B y
      · intro kk' hk'
        by_cases hkk' : kk' = traitKey A x
        · exact Or.inl hkk'
        · exact Or.inr (h kk' (List.mem_cons_of_mem _ hk') hkk')
    · rcases List.mem_cons.mp hmem with heq | hmem'
      · exact absurd heq.symm hkk
      · apply ih _ hmem'
        intro kk' hk'
        exact h kk' (List.mem_cons_of_mem kk hk')

theorem outerFold_keys_nodup (cfg : Config) :
    ∀ (keys : List String) (m : List (String × String)),
      (m.map Prod.fst).Nodup →
      ((keys.foldl
          (fun mustAdd k =>
            match cfg.requires.lookup k with
            | some reqs =>
              reqs.foldl
                (fun m target =>
                  let parts := (jsSplitOnChar ':' target.data).map (fun l => (⟨l⟩ : String))
                  mapSet m (parts.headD "") ((parts.get? 1).getD "undefined"))
                mustAdd
            | none => mustAdd)
          m).map Prod.fst).Nodup := by
  intro keys
  induction keys with
  | nil => intro m h; exact h
  | cons kk rest ih =>
    intro m h
    rw [List.foldl_cons]
    apply ih
    cases hlk : cfg.requires.lookup kk with
    | none => exact h
    | some reqs => exact innerFold_keys_nodup reqs m h

theorem assoc_decomp {B y : String} :
    ∀ {m : List (String × String)},
      List.lookup B m = some y → ((m.map Prod.fst).Nodup) →
      ∃ pre post, m = pre ++ (B, y) :: post ∧
        (∀ p ∈ pre, p.1 ≠ B) ∧ (∀ p ∈ post, p.1 ≠ B) := by
  intro m
  induction m with
  | nil => intro hl _; exact absurd hl (by simp)
  | cons p rest ih =>
    intro hl hnd
    rcases p with ⟨k0, v0⟩
    rw [List.lookup_cons] at hl
    rw [List.map_cons, List.nodup_cons] at hnd
    by_cases hk : B = k0
    · subst hk
      rw [show (B == B) = true from by simp] at hl
      refine ⟨[], rest, ?_, by simp, ?_⟩
      · rw [List.nil_append]
        injection hl with hv
        rw [hv]
      · intro q hq hqB
        exact hnd.1 (List.mem_map.mpr ⟨q, hq, hqB⟩)
    · rw [show (B == k0) = false from by simpa using hk] at hl
      rcases ih hl hnd.2 with ⟨pre, post, heq, hpre, hpost⟩
      exact ⟨(k0, v0) :: pre, post, by rw [List.cons_append, heq],
        fun q hq => by
          rcases List.mem_cons.mp hq with rfl | hq
          · exact fun h => hk h.symm
          · exact hpre q hq,
        hpost⟩

theorem replaceAt_exists {ln vn : String} :
    ∀ {l : List Picked}, ln ∈ l.map (fun p => p.layer) →
      ∃ p ∈ replaceAt ln vn l, p.layer = ln ∧ p.name = vn := by
  intro l
  induction l with
  | nil => intro h; exact absurd h (by simp)
  | cons q rest ih =>
    intro h
    unfold replaceAt
    by_cases hq : q.layer = ln
    · rw [if_pos hq]
      exact ⟨{ q with name := vn, id := traitKey ln vn },
        List.mem_cons_self _ _, hq, rfl⟩
    · rw [if_neg hq]
      have h' : ln ∈ rest.map (fun p => p.layer) := by
        rcases List.mem_map.mp h with ⟨p, hp, hpl⟩
        rcases List.mem_cons.mp hp with rfl | hp
        · exact absurd hpl hq
        · exact hpl ▸ List.mem_map_of_mem (fun p => p.layer) hp
      rcases ih h' with ⟨p, hp, hpl, hpn⟩
      exact ⟨p, List.mem_cons_of_mem q hp, hpl, hpn⟩

theorem replaceAt_preserve {ln vn : String} {p : Picked} :
    ∀ {l : List Picked}, p ∈ l → p.layer ≠ ln → p ∈ replaceAt ln vn l := by
  intro l
  induction l with
  | nil => intro h _; exact absurd h (List.not_mem_nil p)
  | cons q rest ih =>
    intro h hne
    unfold replaceAt
    by_cases hq : q.layer = ln
    · rw [if_pos hq]
      rcases List.mem_cons.mp h with rfl | h
      · exact absurd hq hne
      · exact List.mem_cons_of_mem _ h
    · rw [if_neg hq]
      rcases List.mem_cons.mp h with rfl | h
      · exact List.mem_cons_self _ _
      · exact List.mem_cons_of_mem q (ih h hne)

theorem applyFold_preserve (layers : List Layer) {B y : String} :
    ∀ (entries : List (String × String)) (st : List Picked × Nat),
      st.1.map (fun p => p.layer) = layers.map (fun l => l.id) →
      (∀ e ∈ entries, e.1 ≠ B) →
      (∃ p ∈ st.1, p.layer = B ∧ p.name = y) →
      ∃ p ∈ (entries.foldl (applyOverride layers) st).1, p.layer = B ∧ p.name = y := by
  intro entries
  induction entries with
  | nil => intro st _ _ hex; exact hex
  | cons e rest ih =>
    intro st hcov hne hex
    rw [List.foldl_cons]
    rcases hex with ⟨p, hp, hpl, hpn⟩
    by_cases hmem : e.1 ∈ st.1.map (fun p => p.layer)
    · rw [applyOverride_hit hmem]
      refine ih _ (by rw [replaceAt_map_layer]; exact hcov)
        (fun e' he' => hne e' (List.mem_cons_of_mem e he')) ?_
      exact ⟨p, replaceAt_preserve hp
        (fun h => hne e (List.mem_cons_self e rest) (h ▸ hpl ▸ rfl)), hpl, hpn⟩
    · rw [applyOverride_miss hmem (hcov ▸ hmem)]
      exact ih st hcov (fun e' he' => hne e' (List.mem_cons_of_mem e he'))
        ⟨p, hp, hpl, hpn⟩

unseal Rat.mul Rat.add Rat.sub Rat.inv in
/-- C6 counterexample: with rules `"A:a1" -> ["B:b2"]` and `"C:c1" -> ["B:b3"]`
both firing, the later `Map.set` for `C:c1` overwrites the earlier one, so the
accepted token contains `A:a1` but layer `B` carries `b3`, not `b2` —
contradicting the claim for the rule `"A:a1" -> ["B:b2"]`. -/
theorem c6_conflicting_rules_counterexample :
    List.lookup "A:a1" cfgC6.requires = some ["B:b2"] ∧
    (genRun cfgC6 layersC6 (fun _ => 0)).tokens.length = 1 ∧
    "A:a1" ∈ chosenKeys (((genRun cfgC6 layersC6 (fun _ => 0)).tokens.getD 0
      default).selection) ∧
    (∀ p ∈ ((genRun cfgC6 layersC6 (fun _ => 0)).tokens.getD 0 default).selection,
      ¬(p.layer = "B" ∧ p.name = "b2")) := by
  refine ⟨by decide, by decide, by decide, by decide⟩

/-- C6 amended: given requirement rule `"A:x" -> ["B:y"]` with `B` a catalog
layer, a selection whose initial draw contains `A:x` does contain the value
`y` in layer `B` — provided no *other* chosen trait's requirement also
targets layer `B` (requirement resolution is last-write-wins over the
selection's key order, so a conflicting later rule overwrites `y`, see the
counterexample). -/
theorem c6_requirement_propagation_amended
    (cfg : Config) (layers : List Layer) (rand : Nat → Rat) (k : Nat)
    (A x B y : String)
    (hwf : wellFormed layers)
    (hBc : ':' ∉ B.data) (hyc : ':' ∉ y.data)
    (hkey : traitKey A x ∈ chosenKeys (initialPicksGo rand layers k 0))
    (hreq : cfg.requires.lookup (traitKey A x) = some [traitKey B y])
    (hB : B ∈ layers.map (fun l => l.id))
    (hother : ∀ kk ∈ chosenKeys (initialPicksGo rand layers k 0),
      kk ≠ traitKey A x →
      ∀ t ∈ (cfg.requires.lookup kk).getD [],
        (((jsSplitOnChar ':' t.data).map (fun l => (⟨l⟩ : String))).headD "") ≠ B) :
    ∃ p ∈ (pickTraitsForLayers cfg layers rand k).1, p.layer = B ∧ p.name = y := by
  have hcov := initialPicksGo_map_layer rand layers hwf k 0
  unfold pickTraitsForLayers
  dsimp only
  rw [mandatoryStep_eq_self cfg layers _ hcov]
  have hlook : List.lookup B
      (enforceRequirements cfg (initialPicksGo rand layers k 0)) = some y := by
    unfold enforceRequirements
    exact outerFold_reach cfg A x B y hBc hyc hreq _ [] hkey hother
  have hnd : ((enforceRequirements cfg (initialPicksGo rand layers k 0)).map
      Prod.fst).Nodup := by
    unfold enforceRequirements
    exact outerFold_keys_nodup cfg _ [] (by simp)
  rcases assoc_decomp hlook hnd with ⟨pre, post, heq, hpre, hpost⟩
  rw [heq, List.foldl_append, List.foldl_cons]
  have hcov1 := (applyFold_map_fields layers pre
    (initialPicksGo rand layers k 0, layers.length) hcov).2
  have hBmem : B ∈ ((pre.foldl (applyOverride layers)
      (initialPicksGo rand layers k 0, layers.length)).1).map (fun p => p.layer) := by
    rw [hcov1]; exact hB
  rw [applyOverride_hit hBmem]
  apply applyFold_preserve layers post _
    (by rw [replaceAt_map_layer]; exact hcov1) hpost
  exact replaceAt_exists hBmem

unseal Rat.mul Rat.add Rat.sub Rat.inv in
/-- Witness for the amended requirement-propagation theorem: the single rule
`"A:a1" -> ["B:zzz"]` with no competing rule forces `B:zzz` into the
selection. -/
theorem c6_requirement_propagation_amended_witness :
    (wellFormed layersC5 ∧
      traitKey "A" "a1" ∈ chosenKeys (initialPicksGo (fun _ => 0) layersC5 0 0) ∧
      cfgC5.requires.lookup (traitKey "A" "a1") = some [traitKey "B" "zzz"] ∧
      "B" ∈ layersC5.map (fun l => l.id)) ∧
    ∃ p ∈ (pickTraitsForLayers cfgC5 layersC5 (fun _ => 0) 0).1,
      p.layer = "B" ∧ p.name = "zzz" := by
  refine ⟨⟨by decide, by decide, by decide, by decide⟩, ?_⟩
  exact c6_requirement_propagation_amended cfgC5 layersC5 (fun _ => 0) 0
    "A" "a1" "B" "zzz" (by decide) (by decide) (by decide) (by decide)
    (by decide) (by decide) (by decide)

theorem cons_set_perm {α : Type} : ∀ (xs : List α) (m : Nat) (h : m < xs.length) (x : α),
    (xs.get ⟨m, h⟩ :: xs.set m x).Perm (x :: xs)
  | [], m, h, x => absurd h (by simp)
  | y :: ys, 0, h, x => List.Perm.swap x y ys
  | y :: ys, m + 1, h, x => by
    have hm : m < ys.length := Nat.lt_of_succ_lt_succ h
    have ih := cons_set_perm ys m hm x
    rw [show (y :: ys).get ⟨m + 1, h⟩ :: (y :: ys).set (m + 1) x
        = ys.get ⟨m, hm⟩ :: y :: ys.set m x from by simp]
    exact (List.Perm.swap _ _ _).trans ((ih.cons y).trans (List.Perm.swap _ _ _))

theorem set_set_perm {α : Type} : ∀ (l : List α) (i j : Nat) (hi : i < l.length)
    (hj : j < l.length),
    ((l.set i (l.get ⟨j, hj⟩)).set j (l.get ⟨i, hi⟩)).Perm l
  | [], i, j, hi, _ => absurd hi (by simp)
  | a :: t, 0, 0, hi, hj => by simp
  | a :: t, 0, m + 1, hi, hj => by
    have hm : m < t.length := Nat.lt_of_succ_lt_succ hj
    have : ((a :: t).set 0 ((a :: t).get ⟨m + 1, hj⟩)).set (m + 1) ((a :: t).get ⟨0, hi⟩)
        = t.get ⟨m, hm⟩ :: t.set m a := by simp
    rw [this]
    exact cons_set_perm t m hm a
  | a :: t, n + 1, 0, hi, hj => by
    have hn : n < t.length := Nat.lt_of_succ_lt_succ hi
    have : ((a :: t).set (n + 1) ((a :: t).get ⟨0, hj⟩)).set 0 ((a :: t).get ⟨n + 1, hi⟩)
        = t.get ⟨n, hn⟩ :: t.set n a := by simp
    rw [this]
    exact cons_set_perm t n hn a
  | a :: t, n + 1, m + 1, hi, hj => by
    have hn : n < t.length := Nat.lt_of_succ_lt_succ hi
    have hm : m < t.length := Nat.lt_of_succ_lt_succ hj
    have : ((a :: t).set (n + 1) ((a :: t).get ⟨m + 1, hj⟩)).set (m + 1)
          ((a :: t).get ⟨n + 1, hi⟩)
        = a :: ((t.set n (t.get ⟨m, hm⟩)).set m (t.get ⟨n, hn⟩)) := by simp
    rw [this]
    exact (set_set_perm t n m hn hm).cons a

theorem listSwap_perm {α : Type} [Inhabited α] {l : List α} {i j : Nat}
    (hi : i < l.length) (hj : j < l.length) : (listSwap l i j).Perm l := by
  unfold listSwap
  rw [List.getD_eq_getElem l default hj, List.getD_eq_getElem l default hi]
  exact set_set_perm l i j hi hj

theorem listSwap_length {α : Type} [Inhabited α] (l : List α) (i j : Nat) :
    (listSwap l i j).length = l.length := by
  unfold listSwap
  rw [List.length_set, List.length_set]

theorem jsFloorNat_lt {q : Rat} (_h0 : 0 ≤ q) (h1 : q < 1) {n : Nat} (hn : 0 < n) :
    jsFloorNat (q * n) < n := by
  have hqn : q * (n : Rat) < (n : Rat) := by
    calc q * (n : Rat) < 1 * (n : Rat) := by
          exact mul_lt_mul_of_pos_right h1 (by exact_mod_cast hn)
      _ = (n : Rat) := one_mul _
  have hfl : Rat.floor (q * (n : Rat)) < (n : Int) := by
    by_contra hcon
    push_neg at hcon
    have := Rat.le_floor.mp hcon
    push_cast at this
    exact absurd hqn (not_lt.mpr this)
  unfold jsFloorNat
  omega

theorem shuffleGo_perm {α : Type} [Inhabited α] (rand : Nat → Rat)
    (hr : ∀ n, 0 ≤ rand n ∧ rand n < 1) :
    ∀ (i : Nat) (a : List α) (k : Nat), i < a.length →
      ((shuffleGo rand a i k).1).Perm a := by
  intro i
  induction i with
  | zero => intro a k _; exact List.Perm.refl a
  | succ i ih =>
    intro a k hlt
    unfold shuffleGo
    dsimp only
    have hj : jsFloorNat (rand k * (i + 2)) < a.length := by
      apply Nat.lt_of_lt_of_le
      · exact_mod_cast jsFloorNat_lt (hr k).1 (hr k).2 (n := i + 2) (by omega)
      · omega
    have hswap := listSwap_perm (l := a) (i := i + 1) (j := jsFloorNat (rand k * (i + 2))) hlt hj
    have hlen : (listSwap a (i + 1) (jsFloorNat (rand k * (i + 2)))).length = a.length :=
      listSwap_length a _ _
    exact (ih _ (k + 1) (by omega)).trans hswap

theorem shuffle_perm {α : Type} [Inhabited α] (rand : Nat → Rat)
    (hr : ∀ n, 0 ≤ rand n ∧ rand n < 1) (a : List α) (k : Nat) :
    ((shuffle rand a k).1).Perm a := by
  unfold shuffle
  cases a with
  | nil => exact List.Perm.refl _
  | cons x t =>
    apply shuffleGo_perm rand hr
    simp

theorem shuffleGo_length {α : Type} [Inhabited α] (rand : Nat → Rat) :
    ∀ (i : Nat) (a : List α) (k : Nat),
      ((shuffleGo rand a i k).1).length = a.length := by
  intro i
  induction i with
  | zero => intro a k; rfl
  | succ i ih =>
    intro a k
    unfold shuffleGo
    dsimp only
    rw [ih _ (k + 1), listSwap_length]

theorem map_range_getD {α β : Type} (l : List α) (d : α) (f : α → β) :
    (List.range l.length).map (fun i => f (l.getD i d)) = l.map f := by
  apply List.ext_getElem (by simp)
  intro i h1 h2
  simp only [List.getElem_map, List.getElem_range]
  rw [List.getD_eq_getElem l d (by simpa using h2)]

theorem map_range_getD_of_length {α β : Type} {l : List α} {n : Nat} (d : α)
    (f : α → β) (hlen : l.length = n) :
    (List.range n).map (fun i => f (l.getD i d)) = l.map f := by
  subst hlen
  exact map_range_getD l d f

theorem shuffle_length {α : Type} [Inhabited α] (rand : Nat → Rat) (a : List α)
    (k : Nat) : ((shuffle rand a k).1).length = a.length := by
  unfold shuffle
  rw [shuffleGo_length]

theorem shuffled_contents_multiset {β : Type} [DecidableEq β]
    (metas : List Meta) (inds : List Nat) (g : Nat → β) (f : Meta → β)
    (hperm : inds.Perm ((List.range metas.length).map (· + 1)))
    (hg : ∀ m, g m = f (metas.getD (inds.getD m 0 - 1) default)) :
    (((List.range metas.length).map g : List β) : Multiset β)
      = ((metas.map f : List β) : Multiset β) := by
  have hlen : inds.length = metas.length := by
    have := hperm.length_eq
    simpa using this
  apply Multiset.coe_eq_coe.mpr
  have step1 : (List.range metas.length).map g
      = inds.map (fun idx => f (metas.getD (idx - 1) default)) := by
    apply List.ext_getElem (by simp [hlen])
    intro i hi1 hi2
    simp only [List.getElem_map, List.getElem_range]
    rw [hg i, List.getD_eq_getElem inds 0 (by simpa using hi2)]
  rw [step1]
  refine (hperm.map _).trans ?_
  have step2 : ((List.range metas.length).map (· + 1)).map
        (fun idx => f (metas.getD (idx - 1) default))
      = metas.map f := by
    rw [List.map_map]
    apply List.ext_getElem (by simp)
    intro i hi1 hi2
    simp only [List.getElem_map, List.getElem_range, Function.comp]
    rw [show i + 1 - 1 = i from rfl, List.getD_eq_getElem metas default (by simpa using hi2)]
  rw [step2]

/-- C8: with shuffle mode on, the shuffle step permutes only the association
between token ids and metadata *content*: the new ids are exactly
`1..allMetadata.length` (the successfully generated tokens only), the content
multiset (attribute list and description of each record) is exactly that of
the generated records, the id permutation comes from the Fisher–Yates
`shuffle` (a permutation of `[1..n]` for every draw sequence of the uniform
generator, which makes the resulting permutation uniform), and the image
paths and composited stacks on disk are untouched. -/
theorem c8_shuffle_preserves_content (cfg : Config) (layers : List Layer)
    (rand : Nat → Rat) (hs : cfg.shuffleMetadata = true)
    (hr : ∀ n, 0 ≤ rand n ∧ rand n < 1) :
    (mainRun cfg layers rand).imagePaths = (genRun cfg layers rand).imagePaths ∧
    (mainRun cfg layers rand).composed = (genRun cfg layers rand).composed ∧
    ((shuffle rand
        ((List.range (genRun cfg layers rand).allMetadata.length).map (· + 1))
        (genRun cfg layers rand).k).1).Perm
      ((List.range (genRun cfg layers rand).allMetadata.length).map (· + 1)) ∧
    (((mainRun cfg layers rand).metadataDir.map
        (fun p => (p.2.attributes, p.2.description)) : Multiset (List (String × String) × String)))
      = (((genRun cfg layers rand).allMetadata.map
          (fun m => (m.attributes, m.description)) : Multiset (List (String × String) × String))) ∧
    (mainRun cfg layers rand).metadataDir.map Prod.fst
      = (List.range (genRun cfg layers rand).allMetadata.length).map (· + 1) := by
  have hmain : mainRun cfg layers rand =
      { genRun cfg layers rand with
        k := (shuffle rand
          ((List.range (genRun cfg layers rand).allMetadata.length).map (· + 1))
          (genRun cfg layers rand).k).2
        metadataDir :=
          (List.range (genRun cfg layers rand).allMetadata.length).map (fun m =>
            let newId := m + 1
            let originalIdx := ((shuffle rand
              ((List.range (genRun cfg layers rand).allMetadata.length).map (· + 1))
              (genRun cfg layers rand).k).1).getD m 0 - 1
            let meta0 := (genRun cfg layers rand).allMetadata.getD originalIdx default
            (newId,
              { meta0 with
                name := cfg.namePrefix ++ " #" ++ natToString newId
                edition := newId
                image := imageUriFor cfg newId })) } := by
    unfold mainRun applyShuffle
    rw [hs]
    dsimp only
    rw [if_pos rfl]
  have hperm : ((shuffle rand
      ((List.range (genRun cfg layers rand).allMetadata.length).map (· + 1))
      (genRun cfg layers rand).k).1).Perm
      ((List.range (genRun cfg layers rand).allMetadata.length).map (· + 1)) :=
    shuffle_perm rand hr _ _
  have hlen : ((shuffle rand
      ((List.range (genRun cfg layers rand).allMetadata.length).map (· + 1))
      (genRun cfg layers rand).k).1).length
      = (genRun cfg layers rand).allMetadata.length := by
    rw [shuffle_length]
    simp
  refine ⟨by rw [hmain], by rw [hmain], hperm, ?_, ?_⟩
  · rw [hmain]
    dsimp only
    rw [List.map_map]
    exact shuffled_contents_multiset (genRun cfg layers rand).allMetadata
      ((shuffle rand
        ((List.range (genRun cfg layers rand).allMetadata.length).map (· + 1))
        (genRun cfg layers rand).k).1)
      _ (fun m => (m.attributes, m.description)) hperm (fun m => rfl)
  · rw [hmain]
    dsimp only
    rw [List.map_map]
    rfl

/-- Witness for the shuffle theorem at a concrete two-token run whose draw
sequence swaps the two metadata records. -/
theorem c8_shuffle_preserves_content_witness :
    (cfgC8.shuffleMetadata = true ∧ (∀ n, 0 ≤ randC8 n ∧ randC8 n < 1)) ∧
    ((mainRun cfgC8 layersC8 randC8).imagePaths = (genRun cfgC8 layersC8 randC8).imagePaths ∧
    (mainRun cfgC8 layersC8 randC8).composed = (genRun cfgC8 layersC8 randC8).composed ∧
    ((shuffle randC8
        ((List.range (genRun cfgC8 layersC8 randC8).allMetadata.length).map (· + 1))
        (genRun cfgC8 layersC8 randC8).k).1).Perm
      ((List.range (genRun cfgC8 layersC8 randC8).allMetadata.length).map (· + 1)) ∧
    (((mainRun cfgC8 layersC8 randC8).metadataDir.map
        (fun p => (p.2.attributes, p.2.description)) : Multiset (List (String × String) × String)))
      = (((genRun cfgC8 layersC8 randC8).allMetadata.map
          (fun m => (m.attributes, m.description)) : Multiset (List (String × String) × String))) ∧
    (mainRun cfgC8 layersC8 randC8).metadataDir.map Prod.fst
      = (List.range (genRun cfgC8 layersC8 randC8).allMetadata.length).map (· + 1)) := by
  have hr : ∀ n, 0 ≤ randC8 n ∧ randC8 n < 1 := by
    intro n
    unfold randC8
    by_cases h : n = 1
    · rw [if_pos h]
      norm_num
    · rw [if_neg h]
      norm_num
  exact ⟨⟨rfl, hr⟩, c8_shuffle_preserves_content cfgC8 layersC8 randC8 rfl hr⟩
